import Mathlib

/-!
Verification of the markdown table alignment compensation engine
(`fix-md-tables`).  JavaScript strings are modelled as lists of Unicode
scalar values (`List Char`); all string operations used by the engine
(`trim`, `split`, `slice`, regex character-class tests) act on scalar
values only, so this model is faithful for the functions below.
-/

namespace FixMdTables

/-- One JS string, as its sequence of Unicode scalar values. -/
abbrev Str := List Char

/-- `IDEOGRAPHIC_SPACE` (U+3000): the double-width filler unit. -/
def ideographicSpace : Char := '　'

/-- JS `\s` / `String.prototype.trim` whitespace class (WhiteSpace ∪
LineTerminator): TAB LF VT FF CR SP NBSP OGHAM EN-QUAD..HAIR-SPACE LS PS
NNBSP MMSP IDEOGRAPHIC-SPACE ZWNBSP. -/
def isWs (c : Char) : Bool :=
  c.toNat == 0x09 || c.toNat == 0x0A || c.toNat == 0x0B || c.toNat == 0x0C ||
  c.toNat == 0x0D || c.toNat == 0x20 || c.toNat == 0xA0 || c.toNat == 0x1680 ||
  (decide (0x2000 ≤ c.toNat) && decide (c.toNat ≤ 0x200A)) ||
  c.toNat == 0x2028 || c.toNat == 0x2029 || c.toNat == 0x202F ||
  c.toNat == 0x205F || c.toNat == 0x3000 || c.toNat == 0xFEFF

/-- Character class of `EMOJI_REGEX` (final version in the source: five
pictographic ranges plus Letterlike Symbols U+2100–U+214F).  Each regex
alternative matches a single code point, so a match count is a scalar
count. -/
def isEmojiChar (c : Char) : Bool :=
  (decide (0x1F300 ≤ c.toNat) && decide (c.toNat ≤ 0x1F9FF)) ||
  (decide (0x2600 ≤ c.toNat) && decide (c.toNat ≤ 0x26FF)) ||
  (decide (0x2700 ≤ c.toNat) && decide (c.toNat ≤ 0x27BF)) ||
  (decide (0x231A ≤ c.toNat) && decide (c.toNat ≤ 0x23FA)) ||
  (decide (0x2B50 ≤ c.toNat) && decide (c.toNat ≤ 0x2B55)) ||
  (decide (0x2100 ≤ c.toNat) && decide (c.toNat ≤ 0x214F))

/-- `countEmoji`: number of `EMOJI_REGEX` matches. -/
def countEmoji (s : Str) : Nat := (s.filter isEmojiChar).length

/-- `countIdeographicSpaces`: number of `/　/g` matches. -/
def countIdeographicSpaces (s : Str) : Nat :=
  (s.filter (· == ideographicSpace)).length

/-- `normalizeIdeographicSpaces`: `str.replaceAll("　", "  ")`. -/
def normalizeIdeographicSpaces : Str → Str
  | [] => []
  | c :: rest =>
    if c == ideographicSpace then ' ' :: ' ' :: normalizeIdeographicSpaces rest
    else c :: normalizeIdeographicSpaces rest

/-- JS `String.prototype.trim`: drop leading and trailing whitespace. -/
def trim (s : Str) : Str :=
  ((s.dropWhile isWs).reverse.dropWhile isWs).reverse

/-- `isTableRow`: the trimmed line starts and ends with `|`. -/
def isTableRow (line : Str) : Bool :=
  let t := trim line
  t.head? == some '|' && t.getLast? == some '|'

/-- Character class `[\s:|\-　]` of `TABLE_SEPARATOR_LINE_REGEX`
(U+3000 is already whitespace). -/
def isSeparatorInnerChar (c : Char) : Bool :=
  isWs c || c == ':' || c == '|' || c == '-'

/-- `isTableSeparatorLine`: test of `/^\s*\|[\s:|\-　]+\|\s*$/`.
Since the `\s*` ends are exactly what `trim` removes (the first and last
`\|` are non-whitespace) the regex accepts a line iff its trimmed form is
`|` + (one or more class characters) + `|`, i.e. has length ≥ 3, starts
and ends with `|`, and all middle characters lie in the class. -/
def isTableSeparatorLine (line : Str) : Bool :=
  let t := trim line
  decide (3 ≤ t.length) && t.head? == some '|' && t.getLast? == some '|' &&
    ((t.drop 1).dropLast.all isSeparatorInnerChar)

/-- JS `String.prototype.split` with a single-character separator. -/
def splitOnChar (sep : Char) : Str → List Str
  | [] => [[]]
  | c :: rest =>
    if c == sep then [] :: splitOnChar sep rest
    else
      match splitOnChar sep rest with
      | [] => [[c]]
      | h :: t => (c :: h) :: t

/-- JS `Array.prototype.join` with a single-character separator. -/
def joinWith (sep : Char) : List Str → Str
  | [] => []
  | [s] => s
  | s :: rest => s ++ sep :: joinWith sep rest

/-- `parseTableRow`: trim, drop the outer pipes (`slice(1, -1)`), split
on `|`.  For a trimmed length ≤ 1, `slice(1, -1)` is empty, as here. -/
def parseTableRow (row : Str) : List Str :=
  splitOnChar '|' (((trim row).drop 1).dropLast)

/-- `buildTableRow`: `"|" + cells.join("|") + "|"`. -/
def buildTableRow (cells : List Str) : Str :=
  '|' :: joinWith '|' cells ++ ['|']

/-- `splitCellContent`: bounded index walks from both ends; the trailing
scan cannot pass the leading scan, which is automatic here because the
whitespace-stripped middle starts with a non-whitespace character. -/
def splitCellContent (cell : Str) : Str × Str × Str :=
  let lead := cell.takeWhile isWs
  let rest := cell.dropWhile isWs
  let trail := (rest.reverse.takeWhile isWs).reverse
  let content := (rest.reverse.dropWhile isWs).reverse
  (lead, content, trail)

/-- `compensateRegularCell` (final version): proportional removal when
`trail ≥ 2·compensation`, full-compensation fallback when
`trail ≥ compensation`, otherwise untouched. -/
def compensateRegularCell (cell : Str) (compensation : Nat) : Str :=
  let parts := splitCellContent cell
  let spacesToRemove := compensation * 2
  if spacesToRemove ≤ parts.2.2.length then
    parts.1 ++ parts.2.1 ++ List.replicate compensation ideographicSpace ++
      parts.2.2.drop spacesToRemove
  else if compensation ≤ parts.2.2.length then
    parts.1 ++ parts.2.1 ++ List.replicate compensation ideographicSpace
  else cell

/-- `calculateCompensation` (final version).  JS numbers are exact here;
the intermediate value may be negative, hence `Int`. -/
def calculateCompensation (maxEmoji cellEmoji : Nat) : Int :=
  if maxEmoji = 0 then 0
  else
    let base : Int := min 2 ((maxEmoji : Int) - 1)
    let comp : Int := base + (maxEmoji : Int) - (cellEmoji : Int)
    let capped : Int :=
      if cellEmoji = 0 ∧ 2 < maxEmoji then min comp ((maxEmoji : Int) - 1)
      else comp
    max 0 capped

/-- `calculateMaxEmojiPerColumn`: for each column below `numCols`, the
maximum emoji count over the data rows (row index ≥ 2); the imperative
loop only reads indices below `row.length`, which is the same as letting
missing cells contribute a zero to the running maximum. -/
def calculateMaxEmojiPerColumn (parsedRows : List (List Str)) (numCols : Nat) :
    List Nat :=
  (List.range numCols).map fun col =>
    ((parsedRows.drop 2).map fun row => countEmoji (row.getD col [])).foldl max 0

/-- Index-carrying `map`, for the `(cell, col)` / `(row, rowIdx)`
callbacks of `Array.prototype.map`. -/
def mapWithIndex (f : Nat → α → β) : Nat → List α → List β
  | _, [] => []
  | i, a :: rest => f i a :: mapWithIndex f (i + 1) rest

/-- The per-cell body of `processTable` (final version): keep the
original cell when no further compensation is needed, never rewrite
separator cells, otherwise recompensate the normalized cell. -/
def processTableCell (maxEmojiPerCol : List Nat) (isSeparatorRow : Bool)
    (col : Nat) (originalCell cleanedCell : Str) : Str :=
  let existingCompensation := countIdeographicSpaces originalCell
  let maxEmoji := maxEmojiPerCol.getD col 0
  let cellEmoji := countEmoji cleanedCell
  let neededCompensation := calculateCompensation maxEmoji cellEmoji
  if neededCompensation ≤ 0 ∨ (existingCompensation : Int) ≥ neededCompensation then
    originalCell
  else if isSeparatorRow then cleanedCell
  else compensateRegularCell cleanedCell neededCompensation.toNat

/-- `processTable` (final version).  `Math.max(...lengths)` is the fold
below: past the `length < 2` guard the list is non-empty and every
parsed row has at least one cell. -/
def processTable (tableRows : List Str) : List Str :=
  let originalParsedRows := tableRows.map parseTableRow
  let cleanedRows := tableRows.map normalizeIdeographicSpaces
  let cleanedParsedRows := cleanedRows.map parseTableRow
  let hasEmoji := cleanedRows.any fun row => decide (0 < countEmoji row)
  if hasEmoji = false ∨ cleanedParsedRows.length < 2 then cleanedRows
  else
    let numCols := (cleanedParsedRows.map List.length).foldl max 0
    let maxEmojiPerCol := calculateMaxEmojiPerColumn cleanedParsedRows numCols
    mapWithIndex (fun rowIdx rowPair =>
        buildTableRow (mapWithIndex (fun col originalCell =>
          processTableCell maxEmojiPerCol (rowIdx == 1) col originalCell
            ((Prod.snd rowPair).getD col [])) 0 (Prod.fst rowPair))) 0
      (originalParsedRows.zip cleanedParsedRows)

/-- `cleanTable`: normalize every row. -/
def cleanTable (tableRows : List Str) : List Str :=
  tableRows.map normalizeIdeographicSpaces

/-- `isCodeFenceStart`: trimmed line starts with ``` or ~~~. -/
def isCodeFenceStart (line : Str) : Bool :=
  let t := trim line
  t.take 3 == ['`', '`', '`'] || t.take 3 == ['~', '~', '~']

/-- `isCodeFenceEnd`: trimmed line equals or starts with the fence. -/
def isCodeFenceEnd (line fence : Str) : Bool :=
  let t := trim line
  t == fence || fence.isPrefixOf t

/-- The `/^(`{3,}|~{3,})/` capture: the maximal leading run of backticks
(respectively tildes) of the trimmed line, `"```"` as fallback. -/
def fenceMarkerOf (line : Str) : Str :=
  let t := trim line
  if t.take 3 == ['`', '`', '`'] then t.takeWhile (· == '`')
  else if t.take 3 == ['~', '~', '~'] then t.takeWhile (· == '~')
  else ['`', '`', '`']

/-- `handleCodeFence`: the code-fence state machine. -/
def handleCodeFence (line : Str) (inCodeBlock : Bool) (codeFence : Str) :
    Bool × Str :=
  if !inCodeBlock && isCodeFenceStart line then (true, fenceMarkerOf line)
  else if inCodeBlock && isCodeFenceEnd line codeFence then (false, [])
  else (inCodeBlock, codeFence)

/-- The `while (i < lines.length)` loop of `traverseMarkdownTables`,
with explicit fuel (one unit per iteration of the outer loop; the body
is not structurally recursive because the table branch can consume zero
lines).  `none` means the fuel ran out before the loop finished. -/
def traverseMarkdownTablesAux (tableProcessor : List Str → List Str) :
    Nat → List Str → Bool → Str → Option (List Str)
  | 0, _, _, _ => none
  | _ + 1, [], _, _ => some []
  | fuel + 1, line :: rest, inCodeBlock, codeFence =>
    let st := handleCodeFence line inCodeBlock codeFence
    if st.1 || inCodeBlock then
      (traverseMarkdownTablesAux tableProcessor fuel rest st.1 st.2).map (line :: ·)
    else if line.contains '|' &&
        (match rest with
         | [] => false
         | next :: _ => isTableSeparatorLine next) then
      (traverseMarkdownTablesAux tableProcessor fuel
          ((line :: rest).dropWhile isTableRow) st.1 st.2).map
        (tableProcessor ((line :: rest).takeWhile isTableRow) ++ ·)
    else
      (traverseMarkdownTablesAux tableProcessor fuel rest st.1 st.2).map (line :: ·)

/-- `content.split("\n")`. -/
def splitLines (content : Str) : List Str := splitOnChar '\n' content

/-- `result.join("\n")`. -/
def joinLines (ls : List Str) : Str := joinWith '\n' ls

/-- `fixTableAlignment`, with fuel for the scanner loop. -/
def fixTableAlignmentFuel (fuel : Nat) (content : Str) : Option Str :=
  (traverseMarkdownTablesAux processTable fuel (splitLines content) false []).map
    joinLines

/-- `cleanTableAlignment`, with fuel for the scanner loop. -/
def cleanTableAlignmentFuel (fuel : Nat) (content : Str) : Option Str :=
  (traverseMarkdownTablesAux cleanTable fuel (splitLines content) false []).map
    joinLines

/-! ### Specification-side definitions and concrete inputs -/

/-- Specification §4.4, stated in the spec's own words: for a column, the
maximum of the emoji count over the data rows (row index ≥ 2) that have a
cell at that index; columns with no data rows (or no cells) default to 0. -/
def maxEmojiPerColumnSpec (parsedRows : List (List Str)) (col : Nat) : Nat :=
  (((parsedRows.drop 2).filterMap fun row => row[col]?).map countEmoji).foldl max 0

/-- The spec's example for per-column maxima: two data rows whose per-column
emoji counts are `[2, 0]` and `[1, 1]`. -/
def exampleParsedRows : List (List Str) :=
  [[" H ".toList, " H ".toList],
   [" --- ".toList, " --- ".toList],
   [" 🌟🌟 ".toList, " x ".toList],
   [" 🌟 ".toList, " 🌟 ".toList]]

/-- Concrete cell for the C4 witness. -/
def witnessCell : Str := " Text   ".toList

/-- Concrete glyph-free, filler-free table for the C9 witness. -/
def witnessGlyphFreeTable : List Str := ["| a |".toList, "| - |".toList]

/-- Glyph-free document containing an ideographic space inside a table
cell; `fixTableAlignment` normalizes the filler, so the table block is not
returned byte-identical. -/
def glyphFreeFillerDoc : Str := "| a　b |\n| --- |".toList

/-! ### Exception-aware embedding of the core functions -/

/-- Indexed map whose body may fail; `none` propagates a thrown
exception. -/
def mapWithIndexOpt (f : Nat → α → Option β) : Nat → List α → Option (List β)
  | _, [] => some []
  | i, a :: rest =>
    match f i a, mapWithIndexOpt f (i + 1) rest with
    | some b, some bs => some (b :: bs)
    | _, _ => none

/-- `processTable` with its one fallible access modeled faithfully: the
JavaScript body reads `cleanedRow[col]` and immediately calls
`countEmoji` on it, so a missing cell would raise a `TypeError`; here
that access is `(Prod.snd rowPair)[col]?` and a missing cell produces
`Except.error`. -/
def processTableE (tableRows : List Str) : Except Unit (List Str) :=
  let originalParsedRows := tableRows.map parseTableRow
  let cleanedRows := tableRows.map normalizeIdeographicSpaces
  let cleanedParsedRows := cleanedRows.map parseTableRow
  let hasEmoji := cleanedRows.any fun row => decide (0 < countEmoji row)
  if hasEmoji = false ∨ cleanedParsedRows.length < 2 then Except.ok cleanedRows
  else
    let numCols := (cleanedParsedRows.map List.length).foldl max 0
    let maxEmojiPerCol := calculateMaxEmojiPerColumn cleanedParsedRows numCols
    match mapWithIndexOpt (fun rowIdx rowPair =>
        (mapWithIndexOpt (fun col originalCell =>
          ((Prod.snd rowPair)[col]?).map fun cleanedCell =>
            processTableCell maxEmojiPerCol (rowIdx == 1) col originalCell
              cleanedCell) 0 (Prod.fst rowPair)).map buildTableRow) 0
        (originalParsedRows.zip cleanedParsedRows) with
    | some out => Except.ok out
    | none => Except.error ()

/-- `cleanTable` performs no indexing at all, so its exception-aware
embedding is `Except.ok` of the same map. -/
def cleanTableE (tableRows : List Str) : Except Unit (List Str) :=
  Except.ok (tableRows.map normalizeIdeographicSpaces)

/-- The scanner loop where the table processor may throw: an exception
aborts the whole traversal with `Except.error`, while `none` still means
the fuel ran out. -/
def traverseMarkdownTablesAuxE
    (tableProcessor : List Str → Except Unit (List Str)) :
    Nat → List Str → Bool → Str → Option (Except Unit (List Str))
  | 0, _, _, _ => none
  | _ + 1, [], _, _ => some (Except.ok [])
  | fuel + 1, line :: rest, inCodeBlock, codeFence =>
    let st := handleCodeFence line inCodeBlock codeFence
    if st.1 || inCodeBlock then
      (traverseMarkdownTablesAuxE tableProcessor fuel rest st.1 st.2).map
        (fun r => r.map (line :: ·))
    else if line.contains '|' &&
        (match rest with
         | [] => false
         | next :: _ => isTableSeparatorLine next) then
      (traverseMarkdownTablesAuxE tableProcessor fuel
          ((line :: rest).dropWhile isTableRow) st.1 st.2).map
        (fun r =>
          match tableProcessor ((line :: rest).takeWhile isTableRow), r with
          | Except.ok block, Except.ok tail => Except.ok (block ++ tail)
          | Except.error e, _ => Except.error e
          | _, Except.error e => Except.error e)
    else
      (traverseMarkdownTablesAuxE tableProcessor fuel rest st.1 st.2).map
        (fun r => r.map (line :: ·))

/-- `fixTableAlignment` in the exception-aware embedding. -/
def fixTableAlignmentE (fuel : Nat) (content : Str) :
    Option (Except Unit Str) :=
  (traverseMarkdownTablesAuxE processTableE fuel (splitLines content) false
    []).map (fun r => r.map joinLines)

/-- `cleanTableAlignment` in the exception-aware embedding. -/
def cleanTableAlignmentE (fuel : Nat) (content : Str) :
    Option (Except Unit Str) :=
  (traverseMarkdownTablesAuxE cleanTableE fuel (splitLines content) false
    []).map (fun r => r.map joinLines)

/-- For each line of the document, whether the scanner handles it in the
code-fence branch (the line enters, sits inside, or closes a fenced
block). -/
def fenceFlags : Bool → Str → List Str → List Bool
  | _, _, [] => []
  | inCodeBlock, codeFence, line :: rest =>
    let st := handleCodeFence line inCodeBlock codeFence
    (st.1 || inCodeBlock) :: fenceFlags st.1 st.2 rest

/-- Separator-integrity witness table (header, separator, data row). -/
def sepWitnessRows : List Str :=
  ["| a |".toList, "| --- |".toList, "| 🌟 |".toList]

/-- Fence-opacity witness: a glyph-bearing table inside a code fence. -/
def fenceDoc : Str := "```\n| 🌟 |\n| --- |\n| 🌟🌟 |\n```".toList

/-- Document on which the scanner loop never advances: `"a|b"` contains a
pipe and precedes a separator line, but is not itself a table row, so
`takeWhile isTableRow` consumes zero lines. -/
def loopDoc : Str := "a|b\n| - |".toList

/-- Table-bearing document for the idempotence witness. -/
def idemDoc : Str := "x\n| a | b |\n| --- | --- |\n| 🌟 | c |".toList

/-- `fixTableAlignment idemDoc`: the header cell `" a "` gains one filler
unit. -/
def idemDocOut : Str := "x\n| a　| b |\n| --- | --- |\n| 🌟 | c |".toList

/-! ### Basic lemmas about split and join -/

theorem splitOnChar_ne_nil (sep : Char) (s : Str) : splitOnChar sep s ≠ [] := by
  cases s with
  | nil => simp [splitOnChar]
  | cons c rest =>
    simp only [splitOnChar]
    split
    · simp
    · split <;> simp

theorem joinWith_cons_cons (sep c : Char) (h : Str) (t : List Str) :
    joinWith sep ((c :: h) :: t) = c :: joinWith sep (h :: t) := by
  cases t <;> rfl

theorem joinWith_splitOnChar (sep : Char) (s : Str) :
    joinWith sep (splitOnChar sep s) = s := by
  induction s with
  | nil => rfl
  | cons c rest ih =>
    simp only [splitOnChar]
    split
    · next hc =>
      rcases hs : splitOnChar sep rest with _ | ⟨h0, t0⟩
      · exact absurd hs (splitOnChar_ne_nil sep rest)
      · rw [hs] at ih
        have hcs : c = sep := by simpa using hc
        simpa [joinWith, hcs] using ih
    · next hc =>
      rcases hs : splitOnChar sep rest with _ | ⟨h0, t0⟩
      · exact absurd hs (splitOnChar_ne_nil sep rest)
      · rw [hs] at ih
        rw [joinWith_cons_cons, ih]

theorem splitOnChar_of_not_mem (sep : Char) (s : Str) (h : sep ∉ s) :
    splitOnChar sep s = [s] := by
  induction s with
  | nil => rfl
  | cons c rest ih =>
    simp only [List.mem_cons, not_or] at h
    simp only [splitOnChar]
    rw [if_neg (by simpa using Ne.symm h.1), ih h.2]

theorem splitOnChar_append_sep (sep : Char) (a b : Str) (h : sep ∉ a) :
    splitOnChar sep (a ++ sep :: b) = a :: splitOnChar sep b := by
  induction a with
  | nil => simp [splitOnChar]
  | cons c a' ih =>
    simp only [List.mem_cons, not_or] at h
    simp only [List.cons_append, splitOnChar, List.append_eq]
    rw [if_neg (by simpa using Ne.symm h.1), ih h.2]

theorem splitOnChar_joinWith (sep : Char) (cells : List Str)
    (hne : cells ≠ []) (hcell : ∀ cell ∈ cells, sep ∉ cell) :
    splitOnChar sep (joinWith sep cells) = cells := by
  induction cells with
  | nil => exact absurd rfl hne
  | cons cell t ih =>
    cases t with
    | nil =>
      exact splitOnChar_of_not_mem sep cell (hcell cell (by simp))
    | cons c2 t2 =>
      have h1 : joinWith sep (cell :: c2 :: t2) = cell ++ sep :: joinWith sep (c2 :: t2) := rfl
      rw [h1, splitOnChar_append_sep sep _ _ (hcell cell (by simp)),
        ih (by simp) (fun x hx => hcell x (List.mem_cons_of_mem _ hx))]

theorem not_sep_mem_of_mem_splitOnChar (sep : Char) (s : Str) (cell : Str)
    (h : cell ∈ splitOnChar sep s) : sep ∉ cell := by
  induction s generalizing cell with
  | nil =>
    simp only [splitOnChar, List.mem_singleton] at h
    subst h; simp
  | cons c rest ih =>
    simp only [splitOnChar] at h
    split at h
    · rcases List.mem_cons.mp h with h | h
      · subst h; simp
      · exact ih cell h
    · next hc =>
      rcases hs : splitOnChar sep rest with _ | ⟨h0, t0⟩
      · exact absurd hs (splitOnChar_ne_nil sep rest)
      · rw [hs] at h
        rcases List.mem_cons.mp h with h | h
        · subst h
          intro hmem
          rcases List.mem_cons.mp hmem with h | h
          · exact hc (by simp [h])
          · exact ih h0 (by simp [hs]) h
        · exact ih cell (by simp [hs, List.mem_cons_of_mem _ h])

theorem mem_of_mem_splitOnChar (sep : Char) (s : Str) (cell : Str) (ch : Char)
    (h : cell ∈ splitOnChar sep s) (hch : ch ∈ cell) : ch ∈ s := by
  induction s generalizing cell with
  | nil =>
    simp only [splitOnChar, List.mem_singleton] at h
    subst h; simp at hch
  | cons c rest ih =>
    simp only [splitOnChar] at h
    split at h
    · rcases List.mem_cons.mp h with h | h
      · subst h; simp at hch
      · exact List.mem_cons_of_mem _ (ih cell h hch)
    · rcases hs : splitOnChar sep rest with _ | ⟨h0, t0⟩
      · exact absurd hs (splitOnChar_ne_nil sep rest)
      · rw [hs] at h
        rcases List.mem_cons.mp h with h | h
        · subst h
          rcases List.mem_cons.mp hch with h | h
          · simp [h]
          · exact List.mem_cons_of_mem _ (ih h0 (by simp [hs]) h)
        · exact List.mem_cons_of_mem _ (ih cell (by simp [hs, List.mem_cons_of_mem _ h]) hch)

theorem length_splitOnChar_pos (sep : Char) (s : Str) :
    0 < (splitOnChar sep s).length := by
  rcases hs : splitOnChar sep s with _ | ⟨h0, t0⟩
  · exact absurd hs (splitOnChar_ne_nil sep s)
  · simp

/-! ### Lemmas about whitespace trimming -/

theorem dropWhile_eq_self_of_head (p : Char → Bool) (s : Str)
    (h : ∀ c, s.head? = some c → p c = false) : s.dropWhile p = s := by
  cases s with
  | nil => rfl
  | cons c rest => simp [List.dropWhile_cons, h c rfl]

theorem head?_dropWhile_not (p : Char → Bool) (s : Str) (c : Char)
    (h : (s.dropWhile p).head? = some c) : p c = false := by
  induction s with
  | nil => simp at h
  | cons a l ih =>
    rw [List.dropWhile_cons] at h
    split at h
    · exact ih h
    · next hpa =>
      simp only [List.head?_cons, Option.some.injEq] at h
      subst h
      simpa using hpa

theorem trim_eq_self (s : Str)
    (h1 : ∀ c, s.head? = some c → isWs c = false)
    (h2 : ∀ c, s.getLast? = some c → isWs c = false) : trim s = s := by
  unfold trim
  rw [dropWhile_eq_self_of_head _ _ h1,
    dropWhile_eq_self_of_head _ _ (fun c hc => h2 c (by rwa [List.head?_reverse] at hc)),
    List.reverse_reverse]

theorem trim_prefix_dropWhile (s : Str) : trim s <+: s.dropWhile isWs := by
  have h := List.dropWhile_suffix (l := (s.dropWhile isWs).reverse) isWs
  rw [← List.reverse_prefix] at h
  simpa [trim] using h

theorem trim_head?_not_ws (s : Str) (c : Char) (h : (trim s).head? = some c) :
    isWs c = false := by
  obtain ⟨t, ht⟩ := trim_prefix_dropWhile s
  apply head?_dropWhile_not isWs s c
  rw [← ht, List.head?_append_of_ne_nil]
  · exact h
  · intro hnil; rw [hnil] at h; simp at h

theorem trim_getLast?_not_ws (s : Str) (c : Char) (h : (trim s).getLast? = some c) :
    isWs c = false := by
  unfold trim at h
  rw [List.getLast?_reverse] at h
  exact head?_dropWhile_not isWs _ c h

/-! ### Lemmas about ideographic-space normalization -/

theorem normalize_append (a b : Str) :
    normalizeIdeographicSpaces (a ++ b) =
      normalizeIdeographicSpaces a ++ normalizeIdeographicSpaces b := by
  induction a with
  | nil => rfl
  | cons c rest ih =>
    simp only [List.cons_append, normalizeIdeographicSpaces]
    split <;> simp [ih]

theorem ideographicSpace_not_mem_normalize (s : Str) :
    ideographicSpace ∉ normalizeIdeographicSpaces s := by
  induction s with
  | nil => simp [normalizeIdeographicSpaces]
  | cons c rest ih =>
    simp only [normalizeIdeographicSpaces]
    split
    · simp only [List.mem_cons, not_or]
      exact ⟨by decide, by decide, ih⟩
    · next hc =>
      simp only [List.mem_cons, not_or]
      refine ⟨fun heq => hc ?_, ih⟩
      simp [heq]

theorem normalize_of_not_mem (s : Str) (h : ideographicSpace ∉ s) :
    normalizeIdeographicSpaces s = s := by
  induction s with
  | nil => rfl
  | cons c rest ih =>
    simp only [List.mem_cons, not_or] at h
    simp only [normalizeIdeographicSpaces]
    split
    · next hc =>
      have hcs : c = ideographicSpace := by simpa using hc
      exact absurd hcs.symm h.1
    · rw [ih h.2]

theorem normalize_idem (s : Str) :
    normalizeIdeographicSpaces (normalizeIdeographicSpaces s) =
      normalizeIdeographicSpaces s :=
  normalize_of_not_mem _ (ideographicSpace_not_mem_normalize s)

theorem countEmoji_cons (c : Char) (s : Str) :
    countEmoji (c :: s) = (if isEmojiChar c then 1 else 0) + countEmoji s := by
  by_cases h : isEmojiChar c <;>
    simp [countEmoji, List.filter_cons, h, Nat.add_comm]

theorem countEmoji_append (a b : Str) :
    countEmoji (a ++ b) = countEmoji a + countEmoji b := by
  simp [countEmoji, List.filter_append]

theorem countEmoji_normalize (s : Str) :
    countEmoji (normalizeIdeographicSpaces s) = countEmoji s := by
  induction s with
  | nil => rfl
  | cons c rest ih =>
    simp only [normalizeIdeographicSpaces]
    split
    · next hc =>
      have hcs : c = ideographicSpace := by simpa using hc
      subst hcs
      have e1 : isEmojiChar ' ' = false := by decide
      have e2 : isEmojiChar ideographicSpace = false := by decide
      rw [countEmoji_cons, countEmoji_cons, countEmoji_cons, ih, e1, e2]
      simp
    · rw [countEmoji_cons, countEmoji_cons, ih]

theorem countIS_cons (c : Char) (s : Str) :
    countIdeographicSpaces (c :: s) =
      (if c = ideographicSpace then 1 else 0) + countIdeographicSpaces s := by
  by_cases h : c = ideographicSpace <;>
    simp [countIdeographicSpaces, List.filter_cons, h, Nat.add_comm]

theorem countIS_append (a b : Str) :
    countIdeographicSpaces (a ++ b) =
      countIdeographicSpaces a + countIdeographicSpaces b := by
  simp [countIdeographicSpaces, List.filter_append]

theorem countIS_eq_zero_iff (s : Str) :
    countIdeographicSpaces s = 0 ↔ ideographicSpace ∉ s := by
  induction s with
  | nil => simp [countIdeographicSpaces]
  | cons c rest ih =>
    rw [countIS_cons]
    by_cases h : c = ideographicSpace
    · subst h; simp
    · rw [if_neg h, Nat.zero_add, ih]
      simp only [List.mem_cons, not_or]
      constructor
      · intro hni; exact ⟨fun heq => h heq.symm, hni⟩
      · intro hh; exact hh.2

theorem countIS_normalize (s : Str) :
    countIdeographicSpaces (normalizeIdeographicSpaces s) = 0 :=
  (countIS_eq_zero_iff _).mpr (ideographicSpace_not_mem_normalize s)

theorem normalize_reverse (s : Str) :
    (normalizeIdeographicSpaces s).reverse = normalizeIdeographicSpaces s.reverse := by
  induction s with
  | nil => rfl
  | cons c rest ih =>
    simp only [normalizeIdeographicSpaces, List.reverse_cons]
    split
    · next hc =>
      have hcs : c = ideographicSpace := by simpa using hc
      subst hcs
      rw [normalize_append]
      simp only [List.reverse_cons, List.reverse_cons, List.reverse_nil,
        List.nil_append, List.cons_append, List.append_assoc]
      rw [← ih]
      rfl
    · next hc =>
      have h1 : normalizeIdeographicSpaces [c] = [c] := by
        simp only [normalizeIdeographicSpaces]
        rw [if_neg hc]
      rw [normalize_append, ← ih, h1, List.reverse_cons]

theorem dropWhile_isWs_normalize (s : Str) :
    (normalizeIdeographicSpaces s).dropWhile isWs =
      normalizeIdeographicSpaces (s.dropWhile isWs) := by
  induction s with
  | nil => rfl
  | cons c rest ih =>
    simp only [normalizeIdeographicSpaces]
    split
    · next hc =>
      have hcs : c = ideographicSpace := by simpa using hc
      subst hcs
      rw [List.dropWhile_cons, if_pos (by decide), List.dropWhile_cons,
        if_pos (by decide), ih, List.dropWhile_cons, if_pos (by decide)]
    · next hc =>
      by_cases hw : isWs c
      · rw [List.dropWhile_cons, if_pos hw, ih, List.dropWhile_cons, if_pos hw]
      · rw [List.dropWhile_cons, if_neg hw, List.dropWhile_cons, if_neg hw]
        simp only [normalizeIdeographicSpaces]
        rw [if_neg hc]

theorem trim_normalize (s : Str) :
    trim (normalizeIdeographicSpaces s) = normalizeIdeographicSpaces (trim s) := by
  unfold trim
  rw [dropWhile_isWs_normalize, normalize_reverse, dropWhile_isWs_normalize,
    normalize_reverse]

theorem splitOnChar_cons_of_ne (sep c : Char) (s : Str) (h : (c == sep) = false)
    (h0 : Str) (t0 : List Str) (hs : splitOnChar sep s = h0 :: t0) :
    splitOnChar sep (c :: s) = (c :: h0) :: t0 := by
  simp only [splitOnChar]
  rw [if_neg (by simp [h]), hs]

theorem splitOnChar_pipe_normalize (s : Str) :
    splitOnChar '|' (normalizeIdeographicSpaces s) =
      (splitOnChar '|' s).map normalizeIdeographicSpaces := by
  induction s with
  | nil => rfl
  | cons c rest ih =>
    rcases hs : splitOnChar '|' rest with _ | ⟨h1, t1⟩
    · exact absurd hs (splitOnChar_ne_nil '|' rest)
    have hsn : splitOnChar '|' (normalizeIdeographicSpaces rest) =
        normalizeIdeographicSpaces h1 :: t1.map normalizeIdeographicSpaces := by
      rw [ih, hs, List.map_cons]
    simp only [normalizeIdeographicSpaces]
    split
    · next hc =>
      have hcs : c = ideographicSpace := by simpa using hc
      subst hcs
      rw [splitOnChar_cons_of_ne '|' ' ' _ (by decide) _ _
          (splitOnChar_cons_of_ne '|' ' ' _ (by decide) _ _ hsn),
        splitOnChar_cons_of_ne '|' ideographicSpace _ (by decide) _ _ hs,
        List.map_cons]
      simp only [normalizeIdeographicSpaces]
      rw [if_pos (by decide)]
    · next hc =>
      by_cases hp : c = '|'
      · subst hp
        simp only [splitOnChar]
        rw [if_pos (by decide), if_pos (by decide), hs, hsn, List.map_cons,
          List.map_cons]
        rfl
      · rw [splitOnChar_cons_of_ne '|' c _ (by simp [hp]) _ _ hsn,
          splitOnChar_cons_of_ne '|' c _ (by simp [hp]) _ _ hs, List.map_cons]
        simp only [normalizeIdeographicSpaces]
        rw [if_neg hc]

theorem ne_IS_of_not_ws (c : Char) (h : isWs c = false) : c ≠ ideographicSpace := by
  intro heq
  rw [heq] at h
  have h2 : isWs ideographicSpace = true := by decide
  rw [h2] at h
  exact Bool.noConfusion h

theorem normalize_cons_of_ne (c : Char) (s : Str) (h : c ≠ ideographicSpace) :
    normalizeIdeographicSpaces (c :: s) = c :: normalizeIdeographicSpaces s := by
  simp only [normalizeIdeographicSpaces]
  rw [if_neg (by simpa using h)]

theorem map_eq_self_of_forall {α : Type} (f : α → α) (l : List α)
    (h : ∀ x ∈ l, f x = x) : l.map f = l := by
  induction l with
  | nil => rfl
  | cons a t ih =>
    rw [List.map_cons, h a (by simp), ih (fun x hx => h x (List.mem_cons_of_mem _ hx))]

/-! ### Parsing commutes with normalization -/

theorem parseTableRow_normalize (row : Str) :
    parseTableRow (normalizeIdeographicSpaces row) =
      (parseTableRow row).map normalizeIdeographicSpaces := by
  unfold parseTableRow
  rw [trim_normalize]
  rcases ht : trim row with _ | ⟨c, rest⟩
  · rfl
  · have hc : isWs c = false := trim_head?_not_ws row c (by rw [ht]; rfl)
    have hcIS : c ≠ ideographicSpace := ne_IS_of_not_ws c hc
    rcases List.eq_nil_or_concat rest with hr | ⟨mid, d, hr⟩
    · subst hr
      rw [normalize_cons_of_ne c [] hcIS]
      rfl
    · rw [List.concat_eq_append] at hr
      subst hr
      have hd : isWs d = false := by
        apply trim_getLast?_not_ws row d
        rw [ht, ← List.cons_append, List.getLast?_concat]
      have hdIS : d ≠ ideographicSpace := ne_IS_of_not_ws d hd
      have hnd : normalizeIdeographicSpaces [d] = [d] :=
        normalize_of_not_mem [d] (by simpa using Ne.symm hdIS)
      rw [normalize_cons_of_ne c _ hcIS, normalize_append, hnd]
      simp only [List.drop_one, List.tail_cons]
      rw [List.dropLast_concat, List.dropLast_concat, splitOnChar_pipe_normalize]

/-! ### Building and re-parsing rows -/

theorem buildTableRow_eq_concat (cells : List Str) :
    buildTableRow cells = ('|' :: joinWith '|' cells) ++ ['|'] := by
  simp [buildTableRow]

theorem trim_buildTableRow (cells : List Str) :
    trim (buildTableRow cells) = buildTableRow cells := by
  apply trim_eq_self
  · intro c hc
    have h1 : some '|' = some c := hc
    injection h1 with h2
    rw [← h2]
    decide
  · intro c hc
    rw [buildTableRow_eq_concat, List.getLast?_concat] at hc
    injection hc with h2
    rw [← h2]
    decide

theorem isTableRow_buildTableRow (cells : List Str) :
    isTableRow (buildTableRow cells) = true := by
  simp only [isTableRow, trim_buildTableRow]
  rw [buildTableRow_eq_concat, List.getLast?_concat]
  simp

theorem parseTableRow_buildTableRow (cells : List Str)
    (hne : cells ≠ []) (hcells : ∀ cell ∈ cells, '|' ∉ cell) :
    parseTableRow (buildTableRow cells) = cells := by
  unfold parseTableRow
  rw [trim_buildTableRow, buildTableRow_eq_concat]
  have hdrop : (('|' :: joinWith '|' cells) ++ ['|']).drop 1 =
      joinWith '|' cells ++ ['|'] := rfl
  rw [hdrop, List.dropLast_concat, splitOnChar_joinWith '|' cells hne hcells]

theorem foldl_max_getD_eq_filterMap (col : Nat) (rows : List (List Str)) (a : Nat) :
    (rows.map fun row => countEmoji (row.getD col [])).foldl max a =
      ((rows.filterMap fun row => row[col]?).map countEmoji).foldl max a := by
  induction rows generalizing a with
  | nil => rfl
  | cons r rs ih =>
    rw [List.map_cons, List.foldl_cons, List.filterMap_cons]
    rcases hr : r[col]? with _ | cellv
    · rw [List.getD_eq_getElem?_getD, hr, Option.getD_none]
      have h0 : countEmoji [] = 0 := rfl
      rw [h0, Nat.max_zero, ih]
    · rw [List.getD_eq_getElem?_getD, hr, Option.getD_some, List.map_cons,
        List.foldl_cons, ih]

theorem tableRow_decomp (row : Str) (h1 : isTableRow row = true)
    (h2 : trim row = row) (h3 : 2 ≤ row.length) :
    row = '|' :: row.tail.dropLast ++ ['|'] := by
  have h1' : row.head? = some '|' ∧ row.getLast? = some '|' := by
    simp only [isTableRow, h2, Bool.and_eq_true, beq_iff_eq] at h1
    exact h1
  rcases row with _ | ⟨c, tail⟩
  · simp at h1'
  · have hc : c = '|' := by simpa using h1'.1
    subst hc
    have htne : tail ≠ [] := by
      intro hnil
      subst hnil
      simp at h3
    have hdec := List.dropLast_append_getLast htne
    have hget : ('|' :: tail).getLast? = some (tail.getLast htne) := by
      conv_lhs => rw [← hdec]
      rw [← List.cons_append, List.getLast?_concat]
    have h5 : tail.getLast htne = '|' := by
      have h4 := hget.symm.trans h1'.2
      injection h4
    simp only [List.tail_cons]
    conv_lhs => rw [← hdec]
    rw [h5]
    rfl

/-! ### Whitespace is never a glyph -/

theorem not_emoji_of_ws (c : Char) (h : isWs c = true) : isEmojiChar c = false := by
  simp only [isWs, Bool.or_eq_true, beq_iff_eq, Bool.and_eq_true,
    decide_eq_true_eq] at h
  rw [Bool.eq_false_iff]
  intro habs
  simp only [isEmojiChar, Bool.or_eq_true, Bool.and_eq_true,
    decide_eq_true_eq] at habs
  omega

theorem countEmoji_eq_zero_of_all_ws (s : Str) (h : ∀ c ∈ s, isWs c = true) :
    countEmoji s = 0 := by
  induction s with
  | nil => rfl
  | cons c rest ih =>
    have he := not_emoji_of_ws c (h c (by simp))
    rw [countEmoji_cons, he, ih (fun x hx => h x (List.mem_cons_of_mem _ hx))]
    simp

/-! ### Lemmas about the three-way cell split -/

theorem splitCellContent_append (cell : Str) :
    (splitCellContent cell).1 ++ (splitCellContent cell).2.1 ++
      (splitCellContent cell).2.2 = cell := by
  simp only [splitCellContent]
  rw [List.append_assoc, ← List.reverse_append, List.takeWhile_append_dropWhile,
    List.reverse_reverse, List.takeWhile_append_dropWhile]

theorem splitCellContent_lead_ws (cell : Str) (c : Char)
    (h : c ∈ (splitCellContent cell).1) : isWs c = true := by
  simp only [splitCellContent] at h
  exact List.mem_takeWhile_imp h

theorem splitCellContent_trail_ws (cell : Str) (c : Char)
    (h : c ∈ (splitCellContent cell).2.2) : isWs c = true := by
  simp only [splitCellContent] at h
  rw [List.mem_reverse] at h
  exact List.mem_takeWhile_imp h

theorem splitCellContent_mem (cell : Str) (c : Char)
    (h : c ∈ (splitCellContent cell).1 ∨ c ∈ (splitCellContent cell).2.1 ∨
      c ∈ (splitCellContent cell).2.2) : c ∈ cell := by
  rw [← splitCellContent_append cell]
  simp only [List.mem_append]
  tauto

/-! ### Lemmas about cell compensation -/

theorem compensateRegularCell_of_short (cell : Str) (n : Nat)
    (h : (splitCellContent cell).2.2.length < n) :
    compensateRegularCell cell n = cell := by
  simp only [compensateRegularCell]
  rw [if_neg (by omega), if_neg (by omega)]

theorem countIS_replicate (n : Nat) :
    countIdeographicSpaces (List.replicate n ideographicSpace) = n := by
  induction n with
  | zero => rfl
  | succ m ih =>
    rw [List.replicate_succ, countIS_cons, if_pos rfl, ih]
    omega

theorem countEmoji_replicate_IS (n : Nat) :
    countEmoji (List.replicate n ideographicSpace) = 0 :=
  countEmoji_eq_zero_of_all_ws _ fun c hc => by
    rw [(List.mem_replicate.mp hc).2]
    decide

theorem countIS_piece_zero (cell piece : Str)
    (hsub : ∀ c ∈ piece, c ∈ cell) (h : ideographicSpace ∉ cell) :
    countIdeographicSpaces piece = 0 :=
  (countIS_eq_zero_iff piece).mpr fun hm => h (hsub _ hm)

theorem countIS_compensate (cell : Str) (n : Nat)
    (hIS : ideographicSpace ∉ cell) (hn : n ≤ (splitCellContent cell).2.2.length) :
    countIdeographicSpaces (compensateRegularCell cell n) = n := by
  have hlead : countIdeographicSpaces (splitCellContent cell).1 = 0 :=
    countIS_piece_zero cell _ (fun c hc => splitCellContent_mem cell c (Or.inl hc)) hIS
  have hcontent : countIdeographicSpaces (splitCellContent cell).2.1 = 0 :=
    countIS_piece_zero cell _
      (fun c hc => splitCellContent_mem cell c (Or.inr (Or.inl hc))) hIS
  have htrail : ∀ k, countIdeographicSpaces ((splitCellContent cell).2.2.drop k) = 0 :=
    fun k => countIS_piece_zero cell _
      (fun c hc =>
        splitCellContent_mem cell c (Or.inr (Or.inr (List.mem_of_mem_drop hc)))) hIS
  simp only [compensateRegularCell]
  split
  · rw [countIS_append, countIS_append, countIS_append, hlead, hcontent,
      countIS_replicate, htrail]
    omega
  · rw [countIS_append, countIS_append, hlead, hcontent, countIS_replicate]
    omega

theorem countEmoji_compensate (cell : Str) (n : Nat) :
    countEmoji (compensateRegularCell cell n) = countEmoji cell := by
  have htrail : ∀ k, countEmoji ((splitCellContent cell).2.2.drop k) = 0 :=
    fun k => countEmoji_eq_zero_of_all_ws _ fun c hc =>
      splitCellContent_trail_ws cell c (List.mem_of_mem_drop hc)
  have htrail0 : countEmoji (splitCellContent cell).2.2 = 0 :=
    countEmoji_eq_zero_of_all_ws _ fun c hc => splitCellContent_trail_ws cell c hc
  have hcell : countEmoji cell =
      countEmoji (splitCellContent cell).1 + countEmoji (splitCellContent cell).2.1 := by
    conv_lhs => rw [← splitCellContent_append cell]
    rw [countEmoji_append, countEmoji_append, htrail0]
    omega
  simp only [compensateRegularCell]
  split
  · rw [countEmoji_append, countEmoji_append, countEmoji_append,
      countEmoji_replicate_IS, htrail, hcell]
    omega
  · split
    · rw [countEmoji_append, countEmoji_append, countEmoji_replicate_IS, hcell]
      omega
    · rfl

theorem mem_compensate (cell : Str) (n : Nat) (ch : Char)
    (h : ch ∈ compensateRegularCell cell n) : ch = ideographicSpace ∨ ch ∈ cell := by
  simp only [compensateRegularCell] at h
  split at h
  · simp only [List.mem_append] at h
    rcases h with ((h | h) | h) | h
    · exact Or.inr (splitCellContent_mem cell ch (Or.inl h))
    · exact Or.inr (splitCellContent_mem cell ch (Or.inr (Or.inl h)))
    · exact Or.inl (List.mem_replicate.mp h).2
    · exact Or.inr
        (splitCellContent_mem cell ch (Or.inr (Or.inr (List.mem_of_mem_drop h))))
  · split at h
    · simp only [List.mem_append] at h
      rcases h with (h | h) | h
      · exact Or.inr (splitCellContent_mem cell ch (Or.inl h))
      · exact Or.inr (splitCellContent_mem cell ch (Or.inr (Or.inl h)))
      · exact Or.inl (List.mem_replicate.mp h).2
    · exact Or.inr h

theorem mem_normalize (s : Str) (ch : Char)
    (h : ch ∈ normalizeIdeographicSpaces s) : ch = ' ' ∨ ch ∈ s := by
  induction s with
  | nil => simp [normalizeIdeographicSpaces] at h
  | cons c rest ih =>
    simp only [normalizeIdeographicSpaces] at h
    split at h
    · rcases List.mem_cons.mp h with h | h
      · exact Or.inl h
      · rcases List.mem_cons.mp h with h | h
        · exact Or.inl h
        · rcases ih h with h | h
          · exact Or.inl h
          · exact Or.inr (List.mem_cons_of_mem _ h)
    · rcases List.mem_cons.mp h with h | h
      · exact Or.inr (by simp [h])
      · rcases ih h with h | h
        · exact Or.inl h
        · exact Or.inr (List.mem_cons_of_mem _ h)

/-! ### Lemmas about the index-carrying map -/

theorem mapWithIndex_length {α β : Type} (f : Nat → α → β) (i : Nat) (l : List α) :
    (mapWithIndex f i l).length = l.length := by
  induction l generalizing i with
  | nil => rfl
  | cons a t ih => simp [mapWithIndex, ih]

theorem mapWithIndex_getElem? {α β : Type} (f : Nat → α → β) (i j : Nat)
    (l : List α) : (mapWithIndex f i l)[j]? = (l[j]?).map (f (i + j)) := by
  induction l generalizing i j with
  | nil => simp [mapWithIndex]
  | cons a t ih =>
    cases j with
    | zero => simp [mapWithIndex]
    | succ k =>
      simp only [mapWithIndex, List.getElem?_cons_succ]
      rw [ih]
      have e : i + 1 + k = i + (k + 1) := by omega
      rw [e]

theorem mapWithIndex_congr {α β : Type} (f g : Nat → α → β) (i : Nat) (l : List α)
    (h : ∀ j a, l[j]? = some a → f (i + j) a = g (i + j) a) :
    mapWithIndex f i l = mapWithIndex g i l := by
  induction l generalizing i with
  | nil => rfl
  | cons a t ih =>
    simp only [mapWithIndex]
    have h0 : f i a = g i a := by simpa using h 0 a (by simp)
    rw [h0, ih (i + 1) (fun j b hb => by
      have := h (j + 1) b (by simpa using hb)
      have e : i + (j + 1) = i + 1 + j := by omega
      rwa [e] at this)]

theorem mapWithIndex_map {α β γ : Type} (f : Nat → β → γ) (g : α → β) (i : Nat)
    (l : List α) :
    mapWithIndex f i (l.map g) = mapWithIndex (fun j a => f j (g a)) i l := by
  induction l generalizing i with
  | nil => rfl
  | cons a t ih => simp [mapWithIndex, ih]

/-! ### A normal form for the main branch of the table processor -/

theorem processTable_main_eq (rows : List Str)
    (hcond : ((rows.map normalizeIdeographicSpaces).any fun row =>
        decide (0 < countEmoji row)) = true)
    (hlen : 2 ≤ rows.length) :
    processTable rows =
      mapWithIndex (fun rowIdx row =>
        buildTableRow (mapWithIndex (fun col cell =>
          processTableCell
            (calculateMaxEmojiPerColumn
              (rows.map fun r => (parseTableRow r).map normalizeIdeographicSpaces)
              (((rows.map fun r =>
                  (parseTableRow r).map normalizeIdeographicSpaces).map
                List.length).foldl max 0))
            (rowIdx == 1) col cell (normalizeIdeographicSpaces cell))
          0 (parseTableRow row)))
        0 rows := by
  have hparsed : (rows.map normalizeIdeographicSpaces).map parseTableRow =
      rows.map fun r => (parseTableRow r).map normalizeIdeographicSpaces := by
    rw [List.map_map]
    exact List.map_congr_left fun r _ => parseTableRow_normalize r
  simp only [processTable]
  rw [hparsed, if_neg]
  · rw [List.zip_map', mapWithIndex_map]
    apply mapWithIndex_congr
    intro rowIdx row hrow
    congr 1
    apply mapWithIndex_congr
    intro col cell hcell
    have hcell' : (parseTableRow row)[col]? = some cell := hcell
    congr 1
    rw [List.getD_eq_getElem?_getD, List.getElem?_map, Nat.zero_add, hcell',
      Option.map_some', Option.getD_some]
  · rw [not_or]
    constructor
    · rw [hcond]
      simp
    · rw [List.length_map]
      omega

/-! ### Behaviour of the per-cell processor -/

theorem countEmoji_processTableCell (maxCols : List Nat) (sep : Bool) (col : Nat)
    (cell : Str) :
    countEmoji (processTableCell maxCols sep col cell
        (normalizeIdeographicSpaces cell)) =
      countEmoji (normalizeIdeographicSpaces cell) := by
  simp only [processTableCell]
  split
  · rw [countEmoji_normalize]
  · split
    · rfl
    · rw [countEmoji_compensate]

theorem mem_processTableCell (maxCols : List Nat) (sep : Bool) (col : Nat)
    (cell : Str) (ch : Char)
    (h : ch ∈ processTableCell maxCols sep col cell (normalizeIdeographicSpaces cell)) :
    ch = ideographicSpace ∨ ch = ' ' ∨ ch ∈ cell := by
  simp only [processTableCell] at h
  split at h
  · exact Or.inr (Or.inr h)
  · split at h
    · rcases mem_normalize cell ch h with h | h
      · exact Or.inr (Or.inl h)
      · exact Or.inr (Or.inr h)
    · rcases mem_compensate _ _ ch h with h | h
      · exact Or.inl h
      · rcases mem_normalize cell ch h with h | h
        · exact Or.inr (Or.inl h)
        · exact Or.inr (Or.inr h)

theorem processTableCell_stable (maxCols : List Nat) (sep : Bool) (col : Nat)
    (cell : Str) :
    processTableCell maxCols sep col
        (processTableCell maxCols sep col cell (normalizeIdeographicSpaces cell))
        (normalizeIdeographicSpaces
          (processTableCell maxCols sep col cell (normalizeIdeographicSpaces cell))) =
      processTableCell maxCols sep col cell (normalizeIdeographicSpaces cell) := by
  by_cases h1 : calculateCompensation (maxCols.getD col 0)
      (countEmoji (normalizeIdeographicSpaces cell)) ≤ 0 ∨
      ((countIdeographicSpaces cell : Int) ≥
        calculateCompensation (maxCols.getD col 0)
          (countEmoji (normalizeIdeographicSpaces cell)))
  · have hOUT : processTableCell maxCols sep col cell
        (normalizeIdeographicSpaces cell) = cell := by
      simp only [processTableCell]
      rw [if_pos h1]
    rw [hOUT]
    simp only [processTableCell]
    rw [if_pos h1]
  · have hOUT0 : processTableCell maxCols sep col cell
        (normalizeIdeographicSpaces cell) =
        if sep then normalizeIdeographicSpaces cell
        else compensateRegularCell (normalizeIdeographicSpaces cell)
          (calculateCompensation (maxCols.getD col 0)
            (countEmoji (normalizeIdeographicSpaces cell))).toNat := by
      simp only [processTableCell]
      rw [if_neg h1]
    push_neg at h1
    obtain ⟨hpos, _⟩ := h1
    have hcond2 : ¬(calculateCompensation (maxCols.getD col 0)
        (countEmoji (normalizeIdeographicSpaces cell)) ≤ 0 ∨
        ((countIdeographicSpaces (normalizeIdeographicSpaces cell) : Int) ≥
          calculateCompensation (maxCols.getD col 0)
            (countEmoji (normalizeIdeographicSpaces cell)))) := by
      rw [countIS_normalize]
      push_neg
      exact ⟨hpos, by omega⟩
    by_cases hs : sep = true
    · subst hs
      rw [hOUT0, if_pos rfl, normalize_idem]
      simp only [processTableCell]
      rw [if_neg hcond2]
      simp
    · have hs' : sep = false := by
        revert hs
        cases sep <;> simp
      subst hs'
      rw [hOUT0, if_neg (by simp)]
      by_cases htr : (splitCellContent (normalizeIdeographicSpaces cell)).2.2.length <
          (calculateCompensation (maxCols.getD col 0)
            (countEmoji (normalizeIdeographicSpaces cell))).toNat
      · rw [compensateRegularCell_of_short _ _ htr, normalize_idem]
        simp only [processTableCell]
        rw [if_neg hcond2, if_neg (by simp)]
        exact compensateRegularCell_of_short _ _ htr
      · push_neg at htr
        have hIS2 : countIdeographicSpaces
            (compensateRegularCell (normalizeIdeographicSpaces cell)
              (calculateCompensation (maxCols.getD col 0)
                (countEmoji (normalizeIdeographicSpaces cell))).toNat) =
            (calculateCompensation (maxCols.getD col 0)
              (countEmoji (normalizeIdeographicSpaces cell))).toNat :=
          countIS_compensate _ _ (ideographicSpace_not_mem_normalize cell) htr
        have hE2 : countEmoji (normalizeIdeographicSpaces
            (compensateRegularCell (normalizeIdeographicSpaces cell)
              (calculateCompensation (maxCols.getD col 0)
                (countEmoji (normalizeIdeographicSpaces cell))).toNat)) =
            countEmoji (normalizeIdeographicSpaces cell) := by
          rw [countEmoji_normalize, countEmoji_compensate]
        simp only [processTableCell]
        rw [hE2, hIS2, if_pos (Or.inr (by omega))]

/-! ### More membership and counting lemmas -/

theorem mem_trim (s : Str) (ch : Char) (h : ch ∈ trim s) : ch ∈ s := by
  obtain ⟨t, ht⟩ := trim_prefix_dropWhile s
  have h1 : ch ∈ s.dropWhile isWs := by
    rw [← ht]
    exact List.mem_append_left _ h
  exact (List.dropWhile_sublist isWs (l := s)).mem h1

theorem mem_normalize_of_mem (s : Str) (ch : Char) (h : ch ∈ s)
    (hch : ch ≠ ideographicSpace) : ch ∈ normalizeIdeographicSpaces s := by
  induction s with
  | nil => simp at h
  | cons c rest ih =>
    simp only [normalizeIdeographicSpaces]
    rcases List.mem_cons.mp h with h | h
    · subst h
      rw [if_neg (by simpa using hch)]
      exact List.mem_cons_self ..
    · split
      · exact List.mem_cons_of_mem _ (List.mem_cons_of_mem _ (ih h))
      · exact List.mem_cons_of_mem _ (ih h)

theorem normalize_ne_nil (s : Str) (h : s ≠ []) :
    normalizeIdeographicSpaces s ≠ [] := by
  cases s with
  | nil => exact absurd rfl h
  | cons c rest =>
    simp only [normalizeIdeographicSpaces]
    split <;> simp

theorem countEmoji_reverse (s : Str) : countEmoji s.reverse = countEmoji s := by
  simp [countEmoji, List.filter_reverse]

theorem countEmoji_dropWhile_ws (s : Str) :
    countEmoji (s.dropWhile isWs) = countEmoji s := by
  conv_rhs => rw [← List.takeWhile_append_dropWhile (p := isWs) (l := s)]
  rw [countEmoji_append,
    countEmoji_eq_zero_of_all_ws _ (fun c hc => List.mem_takeWhile_imp hc)]
  omega

theorem countEmoji_trim (s : Str) : countEmoji (trim s) = countEmoji s := by
  unfold trim
  rw [countEmoji_reverse, countEmoji_dropWhile_ws, countEmoji_reverse,
    countEmoji_dropWhile_ws]

theorem pipe_not_mem_parseTableRow (r : Str) (cell : Str)
    (h : cell ∈ parseTableRow r) : '|' ∉ cell :=
  not_sep_mem_of_mem_splitOnChar '|' _ cell h

theorem mem_of_mem_parseTableRow (r : Str) (cell : Str) (ch : Char)
    (h : cell ∈ parseTableRow r) (hch : ch ∈ cell) : ch ∈ r := by
  have h1 : ch ∈ ((trim r).drop 1).dropLast :=
    mem_of_mem_splitOnChar '|' _ cell ch h hch
  have h2 : ch ∈ (trim r).drop 1 := (List.dropLast_sublist _).mem h1
  have h3 : ch ∈ trim r := (List.drop_sublist ..).mem h2
  exact mem_trim r ch h3

theorem parseTableRow_ne_nil (r : Str) : parseTableRow r ≠ [] :=
  splitOnChar_ne_nil '|' _

theorem sum_ne_zero_exists {l : List Nat} (h : l.sum ≠ 0) :
    ∃ x ∈ l, x ≠ 0 := by
  induction l with
  | nil => simp at h
  | cons a t ih =>
    rw [List.sum_cons] at h
    by_cases ha : a = 0
    · subst ha
      rcases ih (by omega) with ⟨x, hx, hx0⟩
      exact ⟨x, List.mem_cons_of_mem _ hx, hx0⟩
    · exact ⟨a, by simp, ha⟩

theorem countEmoji_joinWith (cells : List Str) :
    countEmoji (joinWith '|' cells) = (cells.map countEmoji).sum := by
  induction cells with
  | nil => rfl
  | cons c t ih =>
    cases t with
    | nil => simp [joinWith]
    | cons c2 t2 =>
      have h1 : joinWith '|' (c :: c2 :: t2) = c ++ '|' :: joinWith '|' (c2 :: t2) :=
        rfl
      have hp : isEmojiChar '|' = false := by decide
      rw [h1, countEmoji_append, countEmoji_cons, hp, ih, List.map_cons,
        List.sum_cons]
      simp

theorem countEmoji_buildTableRow (cells : List Str) :
    countEmoji (buildTableRow cells) = (cells.map countEmoji).sum := by
  have hp : isEmojiChar '|' = false := by decide
  rw [buildTableRow_eq_concat, countEmoji_append, countEmoji_cons, hp,
    countEmoji_joinWith]
  simp [countEmoji, hp]

theorem head_last_pipe_decomp (t : Str) (hh : t.head? = some '|')
    (hl : t.getLast? = some '|') :
    t = ['|'] ∨ t = '|' :: (t.drop 1).dropLast ++ ['|'] := by
  rcases t with _ | ⟨c, tail⟩
  · simp at hh
  · have hc : c = '|' := by simpa using hh
    subst hc
    rcases tail with _ | ⟨c2, tail2⟩
    · exact Or.inl rfl
    · right
      have htne : (c2 :: tail2) ≠ [] := by simp
      have hdec := List.dropLast_append_getLast htne
      have hget : ('|' :: c2 :: tail2).getLast? = some ((c2 :: tail2).getLast htne) := by
        conv_lhs => rw [← hdec]
        rw [← List.cons_append, List.getLast?_concat]
      have h5 : (c2 :: tail2).getLast htne = '|' := by
        have h4 := hget.symm.trans hl
        injection h4
      have hrw : (c2 :: tail2) = (c2 :: tail2).dropLast ++ ['|'] := by
        rw [← h5]
        exact hdec.symm
      conv_lhs => rw [hrw]
      rfl

theorem countEmoji_tableRow (r : Str) (h : isTableRow r = true) :
    countEmoji r = ((parseTableRow r).map countEmoji).sum := by
  have h1 : (trim r).head? = some '|' ∧ (trim r).getLast? = some '|' := by
    simp only [isTableRow, Bool.and_eq_true, beq_iff_eq] at h
    exact h
  rw [← countEmoji_trim]
  rcases head_last_pipe_decomp (trim r) h1.1 h1.2 with hdec | hdec
  · rw [hdec]
    unfold parseTableRow
    rw [hdec]
    decide
  · conv_lhs => rw [hdec]
    have hp : isEmojiChar '|' = false := by decide
    rw [countEmoji_append, countEmoji_cons, hp]
    unfold parseTableRow
    conv_lhs =>
      rw [← joinWith_splitOnChar '|' (((trim r).drop 1).dropLast)]
    rw [countEmoji_joinWith]
    simp [countEmoji, hp]

/-! ### Separator line shape lemmas -/

theorem isTableSeparatorLine_decomp (r : Str) (h : isTableSeparatorLine r = true) :
    trim r = '|' :: ((trim r).drop 1).dropLast ++ ['|'] ∧
      ((trim r).drop 1).dropLast ≠ [] ∧
      ∀ c ∈ ((trim r).drop 1).dropLast, isSeparatorInnerChar c = true := by
  simp only [isTableSeparatorLine, Bool.and_eq_true, beq_iff_eq,
    decide_eq_true_eq, List.all_eq_true] at h
  obtain ⟨⟨⟨hlen, hh⟩, hl⟩, hall⟩ := h
  rcases head_last_pipe_decomp (trim r) hh hl with hdec | hdec
  · rw [hdec] at hlen
    simp at hlen
  · refine ⟨hdec, ?_, fun c hc => hall c hc⟩
    intro hnil
    rw [hdec, hnil] at hlen
    simp at hlen

theorem isTableSeparatorLine_intro (r : Str) (inner : Str)
    (hdec : trim r = '|' :: inner ++ ['|']) (hne : inner ≠ [])
    (hall : ∀ c ∈ inner, isSeparatorInnerChar c = true) :
    isTableSeparatorLine r = true := by
  simp only [isTableSeparatorLine, Bool.and_eq_true, beq_iff_eq,
    decide_eq_true_eq, List.all_eq_true]
  rw [hdec]
  have hlen : 1 ≤ inner.length := List.length_pos.mpr hne
  refine ⟨⟨⟨?_, rfl⟩, List.getLast?_concat _⟩, ?_⟩
  · simp only [List.cons_append, List.length_cons, List.length_append,
      List.length_singleton]
    omega
  · intro c hc
    apply hall
    have hdrop : (('|' :: inner ++ ['|']).drop 1).dropLast = inner := by
      rw [List.drop_one, List.cons_append, List.tail_cons, List.dropLast_concat]
    rwa [hdrop] at hc

theorem head?_normalize_trim (r : Str) :
    (normalizeIdeographicSpaces (trim r)).head? = (trim r).head? := by
  rcases ht : trim r with _ | ⟨c, rest⟩
  · rfl
  · have hc := trim_head?_not_ws r c (by rw [ht]; rfl)
    rw [normalize_cons_of_ne c rest (ne_IS_of_not_ws c hc)]
    rfl

theorem getLast?_normalize_trim (r : Str) :
    (normalizeIdeographicSpaces (trim r)).getLast? = (trim r).getLast? := by
  rcases List.eq_nil_or_concat (trim r) with ht | ⟨mid, d, ht⟩
  · rw [ht]
    rfl
  · rw [List.concat_eq_append] at ht
    have hd : isWs d = false :=
      trim_getLast?_not_ws r d (by rw [ht, List.getLast?_concat])
    have hnil : normalizeIdeographicSpaces ([] : Str) = [] := rfl
    rw [ht, normalize_append, normalize_cons_of_ne d [] (ne_IS_of_not_ws d hd),
      hnil, List.getLast?_concat, List.getLast?_concat]

theorem isTableRow_normalize (r : Str) :
    isTableRow (normalizeIdeographicSpaces r) = isTableRow r := by
  simp only [isTableRow]
  rw [trim_normalize, head?_normalize_trim, getLast?_normalize_trim]

theorem isTableSeparatorLine_normalize (r : Str) :
    isTableSeparatorLine (normalizeIdeographicSpaces r) =
      isTableSeparatorLine r := by
  by_cases h : isTableSeparatorLine r = true
  · rw [h]
    obtain ⟨hdec, hne, hall⟩ := isTableSeparatorLine_decomp r h
    generalize hI : ((trim r).drop 1).dropLast = inner at hdec hne hall
    apply isTableSeparatorLine_intro _ (normalizeIdeographicSpaces inner)
    · rw [trim_normalize, hdec, List.cons_append,
        normalize_cons_of_ne '|' _ (by decide), normalize_append]
      have h1 : normalizeIdeographicSpaces ['|'] = ['|'] := by decide
      rw [h1, List.cons_append]
    · exact normalize_ne_nil _ hne
    · intro c hc
      rcases mem_normalize _ c hc with hc | hc
      · rw [hc]
        decide
      · exact hall c hc
  · rw [Bool.eq_false_iff.mpr h]
    rw [Bool.eq_false_iff]
    intro habs
    apply h
    obtain ⟨hdec, hne, hall⟩ := isTableSeparatorLine_decomp _ habs
    generalize hI : ((trim (normalizeIdeographicSpaces r)).drop 1).dropLast =
      inner at hdec hne hall
    rw [trim_normalize] at hdec
    rcases ht : trim r with _ | ⟨c, rest⟩
    · rw [ht] at hdec
      simp [normalizeIdeographicSpaces] at hdec
    · rcases List.eq_nil_or_concat rest with hr | ⟨mid, d, hr⟩
      · subst hr
        have hc := trim_head?_not_ws r c (by rw [ht]; rfl)
        have hnil : normalizeIdeographicSpaces ([] : Str) = [] := rfl
        rw [ht, normalize_cons_of_ne c [] (ne_IS_of_not_ws c hc), hnil] at hdec
        have hlen := congrArg List.length hdec
        simp only [List.length_singleton, List.cons_append, List.length_cons,
          List.length_append] at hlen
        omega
      · rw [List.concat_eq_append] at hr
        subst hr
        have hc := trim_head?_not_ws r c (by rw [ht]; rfl)
        have hd : isWs d = false :=
          trim_getLast?_not_ws r d
            (by rw [ht, ← List.cons_append, List.getLast?_concat])
        have hnil : normalizeIdeographicSpaces ([] : Str) = [] := rfl
        rw [ht, normalize_cons_of_ne c _ (ne_IS_of_not_ws c hc), normalize_append,
          normalize_cons_of_ne d [] (ne_IS_of_not_ws d hd), hnil] at hdec
        have hc2 : c = '|' := by
          have h2 := congrArg List.head? hdec
          simpa using h2
        have hd2 : d = '|' := by
          have h2 := congrArg List.getLast? hdec
          rw [← List.cons_append, List.getLast?_concat, List.getLast?_concat] at h2
          simpa using h2
        have hmid : normalizeIdeographicSpaces mid = inner := by
          have h2 := congrArg (fun l => (List.drop 1 l).dropLast) hdec
          simpa only [List.drop_one, List.cons_append, List.tail_cons,
            List.dropLast_concat] using h2
        apply isTableSeparatorLine_intro r mid
        · rw [ht, hc2, hd2, List.cons_append]
        · intro hnilm
          rw [hnilm, hnil] at hmid
          exact hne hmid.symm
        · intro ch hch
          by_cases hIS : ch = ideographicSpace
          · rw [hIS]
            decide
          · apply hall
            rw [← hmid]
            exact mem_normalize_of_mem mid ch hch hIS

/-! ### Small auxiliary lemmas for row rebuilding -/

theorem map_mapWithIndex_congr {α β γ : Type} (f : Nat → α → β) (g : β → γ)
    (h : α → γ) (i : Nat) (l : List α)
    (hfg : ∀ j a, l[j]? = some a → g (f (i + j) a) = h a) :
    (mapWithIndex f i l).map g = l.map h := by
  induction l generalizing i with
  | nil => rfl
  | cons a t ih =>
    simp only [mapWithIndex, List.map_cons]
    have h0 : g (f i a) = h a := by simpa using hfg 0 a (by simp)
    rw [h0, ih (i + 1) (fun j b hb => by
      have h2 := hfg (j + 1) b (by simpa using hb)
      have e : i + (j + 1) = i + 1 + j := by omega
      rwa [e] at h2)]

theorem mem_joinWith (sep : Char) (cells : List Str) (ch : Char)
    (h : ch ∈ joinWith sep cells) : ch = sep ∨ ∃ cell ∈ cells, ch ∈ cell := by
  induction cells with
  | nil => simp [joinWith] at h
  | cons c t ih =>
    cases t with
    | nil =>
      exact Or.inr ⟨c, by simp, h⟩
    | cons c2 t2 =>
      have h1 : joinWith sep (c :: c2 :: t2) = c ++ sep :: joinWith sep (c2 :: t2) :=
        rfl
      rw [h1] at h
      rcases List.mem_append.mp h with h | h
      · exact Or.inr ⟨c, by simp, h⟩
      · rcases List.mem_cons.mp h with h | h
        · exact Or.inl h
        · rcases ih h with h | ⟨cell, hcell, hch⟩
          · exact Or.inl h
          · exact Or.inr ⟨cell, List.mem_cons_of_mem _ hcell, hch⟩

theorem mem_joinWith_of_mem (sep : Char) (cells : List Str) (cell : Str) (ch : Char)
    (hcell : cell ∈ cells) (hch : ch ∈ cell) : ch ∈ joinWith sep cells := by
  induction cells with
  | nil => simp at hcell
  | cons c t ih =>
    cases t with
    | nil =>
      rcases List.mem_cons.mp hcell with h | h
      · subst h
        exact hch
      · simp at h
    | cons c2 t2 =>
      have h1 : joinWith sep (c :: c2 :: t2) = c ++ sep :: joinWith sep (c2 :: t2) :=
        rfl
      rw [h1]
      rcases List.mem_cons.mp hcell with h | h
      · subst h
        exact List.mem_append_left _ hch
      · exact List.mem_append_right _ (List.mem_cons_of_mem _ (ih h))

theorem mem_splitOnChar_exists (sep : Char) (s : Str) (ch : Char) (h : ch ∈ s) :
    ch = sep ∨ ∃ cell ∈ splitOnChar sep s, ch ∈ cell := by
  have h1 : ch ∈ joinWith sep (splitOnChar sep s) := by
    rw [joinWith_splitOnChar]
    exact h
  exact mem_joinWith sep _ ch h1

theorem compensateRegularCell_nil (n : Nat) :
    compensateRegularCell [] n = [] := by
  cases n with
  | zero => rfl
  | succ m =>
    simp [compensateRegularCell, splitCellContent]

theorem processTableCell_nil (maxCols : List Nat) (sep : Bool) (col : Nat) :
    processTableCell maxCols sep col []
      (normalizeIdeographicSpaces []) = [] := by
  simp only [processTableCell]
  split
  · rfl
  · split
    · rfl
    · exact compensateRegularCell_nil _

theorem processTableCell_sep_cases (maxCols : List Nat) (col : Nat)
    (orig clean : Str) :
    processTableCell maxCols true col orig clean = orig ∨
      processTableCell maxCols true col orig clean = clean := by
  simp only [processTableCell]
  split
  · exact Or.inl rfl
  · right
    simp

theorem mem_compensate_of_not_ws (cell : Str) (n : Nat) (ch : Char)
    (hch : ch ∈ cell) (hws : isWs ch = false) :
    ch ∈ compensateRegularCell cell n := by
  have hsplit := splitCellContent_append cell
  rw [← hsplit] at hch
  rcases List.mem_append.mp hch with h1 | h1
  swap
  · -- trailing whitespace: contradiction with hws
    exact absurd (splitCellContent_trail_ws cell ch h1) (by rw [hws]; simp)
  rcases List.mem_append.mp h1 with h2 | h2
  · exact absurd (splitCellContent_lead_ws cell ch h2) (by rw [hws]; simp)
  · -- ch is in the content part, kept by every branch
    simp only [compensateRegularCell]
    split
    · exact List.mem_append_left _ (List.mem_append_left _
        (List.mem_append_right _ h2))
    · split
      · exact List.mem_append_left _ (List.mem_append_right _ h2)
      · rw [← hsplit]
        exact List.mem_append_left _ (List.mem_append_right _ h2)

theorem exists_of_mem_mapWithIndex {α β : Type} (f : Nat → α → β) (i : Nat)
    (l : List α) (b : β) (h : b ∈ mapWithIndex f i l) :
    ∃ j a, l[j]? = some a ∧ b = f (i + j) a := by
  rcases List.mem_iff_getElem?.mp h with ⟨j, hj⟩
  rw [mapWithIndex_getElem?] at hj
  rcases Option.map_eq_some'.mp hj with ⟨a, ha, hfa⟩
  exact ⟨j, a, ha, hfa.symm⟩

theorem processTableCell_cases (maxCols : List Nat) (sep : Bool) (col : Nat)
    (orig clean : Str) :
    processTableCell maxCols sep col orig clean = orig ∨
    processTableCell maxCols sep col orig clean = clean ∨
    ∃ n, processTableCell maxCols sep col orig clean =
      compensateRegularCell clean n := by
  simp only [processTableCell]
  split
  · exact Or.inl rfl
  · split
    · exact Or.inr (Or.inl rfl)
    · exact Or.inr (Or.inr ⟨_, rfl⟩)

/-! ### Row-level behaviour of the main branch -/

theorem parse_build_processedCells (maxCols : List Nat) (sep : Bool) (row : Str) :
    parseTableRow (buildTableRow (mapWithIndex (fun col cell =>
      processTableCell maxCols sep col cell (normalizeIdeographicSpaces cell))
      0 (parseTableRow row))) =
    mapWithIndex (fun col cell =>
      processTableCell maxCols sep col cell (normalizeIdeographicSpaces cell))
      0 (parseTableRow row) := by
  apply parseTableRow_buildTableRow
  · rcases hp : parseTableRow row with _ | ⟨a, t⟩
    · exact absurd hp (parseTableRow_ne_nil row)
    · simp [mapWithIndex]
  · intro cell hcell
    rcases exists_of_mem_mapWithIndex _ _ _ _ hcell with ⟨j, orig, hj, hc⟩
    subst hc
    intro habs
    rcases mem_processTableCell maxCols sep (0 + j) orig '|' habs with h | h | h
    · exact absurd h (by decide)
    · exact absurd h (by decide)
    · exact pipe_not_mem_parseTableRow row orig
        (List.mem_iff_getElem?.mpr ⟨j, hj⟩) h

theorem countEmoji_processedRow (maxCols : List Nat) (sep : Bool) (row : Str)
    (hrow : isTableRow row = true) :
    countEmoji (buildTableRow (mapWithIndex (fun col cell =>
      processTableCell maxCols sep col cell (normalizeIdeographicSpaces cell))
      0 (parseTableRow row))) =
      countEmoji (normalizeIdeographicSpaces row) := by
  rw [countEmoji_buildTableRow,
    map_mapWithIndex_congr _ countEmoji
      (fun cell => countEmoji (normalizeIdeographicSpaces cell)) 0 _
      (fun j a _ => countEmoji_processTableCell maxCols sep (0 + j) a)]
  have h2 : countEmoji (normalizeIdeographicSpaces row) =
      ((parseTableRow (normalizeIdeographicSpaces row)).map countEmoji).sum :=
    countEmoji_tableRow _ (by rw [isTableRow_normalize]; exact hrow)
  rw [h2, parseTableRow_normalize, List.map_map]
  rfl

theorem compensateRegularCell_ne_nil (cell : Str) (n : Nat) (h : cell ≠ []) :
    compensateRegularCell cell n ≠ [] := by
  have hsplit := splitCellContent_append cell
  simp only [compensateRegularCell]
  split
  · intro habs
    rcases List.append_eq_nil.mp habs with ⟨h1, h4⟩
    rcases List.append_eq_nil.mp h1 with ⟨h2, h3⟩
    rcases List.append_eq_nil.mp h2 with ⟨h5, h6⟩
    have hn : n = 0 := by
      have := congrArg List.length h3
      simpa using this
    subst hn
    rw [List.drop_zero] at h4
    rw [h5, h6, h4] at hsplit
    exact h (hsplit.symm.trans rfl)
  · next hcond =>
    split
    · intro habs
      rcases List.append_eq_nil.mp habs with ⟨h1, h3⟩
      have hn : n = 0 := by
        have := congrArg List.length h3
        simpa using this
      subst hn
      exact hcond (by omega)
    · exact h

theorem joinWith_processedCells_ne_nil (maxCols : List Nat) (sep : Bool)
    (row : Str) (hinner : ((trim row).drop 1).dropLast ≠ []) :
    joinWith '|' (mapWithIndex (fun col cell =>
      processTableCell maxCols sep col cell (normalizeIdeographicSpaces cell))
      0 (parseTableRow row)) ≠ [] := by
  rcases hp : parseTableRow row with _ | ⟨a, t⟩
  · exact absurd hp (parseTableRow_ne_nil row)
  cases t with
  | cons b t2 =>
    intro habs
    have h1 : joinWith '|' (mapWithIndex (fun col cell =>
        processTableCell maxCols sep col cell (normalizeIdeographicSpaces cell))
        0 (a :: b :: t2)) =
        processTableCell maxCols sep 0 a (normalizeIdeographicSpaces a) ++
        '|' :: joinWith '|' (mapWithIndex (fun col cell =>
          processTableCell maxCols sep col cell
            (normalizeIdeographicSpaces cell)) 1 (b :: t2)) := rfl
    rw [h1] at habs
    simp at habs
  | nil =>
    have ha : a = ((trim row).drop 1).dropLast := by
      have h1 := joinWith_splitOnChar '|' (((trim row).drop 1).dropLast)
      have hp' : splitOnChar '|' (((trim row).drop 1).dropLast) = [a] := hp
      rw [hp'] at h1
      have h2 : joinWith '|' [a] = a := rfl
      rw [h2] at h1
      exact h1
    have hane : a ≠ [] := by
      rw [ha]
      exact hinner
    have h3 : joinWith '|' (mapWithIndex (fun col cell =>
        processTableCell maxCols sep col cell (normalizeIdeographicSpaces cell))
        0 [a]) =
        processTableCell maxCols sep 0 a (normalizeIdeographicSpaces a) := rfl
    rw [h3]
    rcases processTableCell_cases maxCols sep 0 a (normalizeIdeographicSpaces a)
      with hc | hc | ⟨n, hc⟩
    · rw [hc]
      exact hane
    · rw [hc]
      exact normalize_ne_nil a hane
    · rw [hc]
      exact compensateRegularCell_ne_nil _ n (normalize_ne_nil a hane)

theorem processedRow_sep_cellChars (maxCols : List Nat) (row : Str)
    (hsep : isTableSeparatorLine row = true) (cell : Str)
    (hcell : cell ∈ mapWithIndex (fun col cell =>
      processTableCell maxCols true col cell (normalizeIdeographicSpaces cell))
      0 (parseTableRow row)) (ch : Char) (hch : ch ∈ cell) :
    isSeparatorInnerChar ch = true := by
  obtain ⟨hdec, hne, hall⟩ := isTableSeparatorLine_decomp row hsep
  rcases exists_of_mem_mapWithIndex _ _ _ _ hcell with ⟨j, orig, hj, hc⟩
  subst hc
  have horig : ∀ c ∈ orig, isSeparatorInnerChar c = true := by
    intro c hcm
    exact hall c (mem_of_mem_splitOnChar '|' _ orig c
      (List.mem_iff_getElem?.mpr ⟨j, hj⟩) hcm)
  rcases processTableCell_sep_cases maxCols (0 + j) orig
    (normalizeIdeographicSpaces orig) with hcase | hcase
  · rw [hcase] at hch
    exact horig ch hch
  · rw [hcase] at hch
    rcases mem_normalize orig ch hch with h | h
    · rw [h]
      decide
    · exact horig ch h

theorem processedRow_sep (maxCols : List Nat) (row : Str)
    (hsep : isTableSeparatorLine row = true) :
    isTableSeparatorLine (buildTableRow (mapWithIndex (fun col cell =>
      processTableCell maxCols true col cell (normalizeIdeographicSpaces cell))
      0 (parseTableRow row))) = true := by
  obtain ⟨hdec, hne, hall⟩ := isTableSeparatorLine_decomp row hsep
  apply isTableSeparatorLine_intro _
    (joinWith '|' (mapWithIndex (fun col cell =>
      processTableCell maxCols true col cell (normalizeIdeographicSpaces cell))
      0 (parseTableRow row)))
  · rw [trim_buildTableRow]
    exact buildTableRow_eq_concat _
  · exact joinWith_processedCells_ne_nil maxCols true row hne
  · intro ch hch
    rcases mem_joinWith '|' _ ch hch with h | ⟨cell, hcell, hchc⟩
    · rw [h]
      decide
    · exact processedRow_sep_cellChars maxCols row hsep cell hcell ch hchc

theorem processedRow_not_sep (maxCols : List Nat) (row : Str)
    (hrow : isTableRow row = true) (hnsep : isTableSeparatorLine row = false) :
    isTableSeparatorLine (buildTableRow (mapWithIndex (fun col cell =>
      processTableCell maxCols false col cell (normalizeIdeographicSpaces cell))
      0 (parseTableRow row))) = false := by
  rw [Bool.eq_false_iff]
  intro habs
  obtain ⟨hdec', hne', hall'⟩ := isTableSeparatorLine_decomp _ habs
  have hinner' : ((trim (buildTableRow (mapWithIndex (fun col cell =>
      processTableCell maxCols false col cell (normalizeIdeographicSpaces cell))
      0 (parseTableRow row)))).drop 1).dropLast =
      joinWith '|' (mapWithIndex (fun col cell =>
        processTableCell maxCols false col cell (normalizeIdeographicSpaces cell))
        0 (parseTableRow row)) := by
    rw [trim_buildTableRow, buildTableRow_eq_concat, List.drop_one,
      List.cons_append, List.tail_cons, List.dropLast_concat]
  rw [hinner'] at hne' hall'
  by_cases hX : ((trim row).drop 1).dropLast = []
  · have hparse : parseTableRow row = [[]] := by
      unfold parseTableRow
      rw [hX]
      rfl
    have hcells : mapWithIndex (fun col cell =>
        processTableCell maxCols false col cell (normalizeIdeographicSpaces cell))
        0 (parseTableRow row) = [[]] := by
      rw [hparse]
      have h1 : mapWithIndex (fun col cell =>
          processTableCell maxCols false col cell
            (normalizeIdeographicSpaces cell)) 0 [[]] =
          [processTableCell maxCols false 0 [] (normalizeIdeographicSpaces [])] :=
        rfl
      rw [h1, processTableCell_nil]
    rw [hcells] at hne'
    exact hne' rfl
  · have h1 : (trim row).head? = some '|' ∧ (trim row).getLast? = some '|' := by
      simp only [isTableRow, Bool.and_eq_true, beq_iff_eq] at hrow
      exact hrow
    rcases head_last_pipe_decomp _ h1.1 h1.2 with hd | hd
    · apply hX
      rw [hd]
      rfl
    · have hsepr : isTableSeparatorLine row = true := by
        apply isTableSeparatorLine_intro row (((trim row).drop 1).dropLast) hd hX
        intro ch hch
        by_cases hclass : isSeparatorInnerChar ch = true
        · exact hclass
        · exfalso
          have hnws : isWs ch = false := by
            rcases hws : isWs ch with _ | _
            · rfl
            · exact absurd (by simp [isSeparatorInnerChar, hws]) hclass
          have hIS : ch ≠ ideographicSpace := by
            intro he
            rw [he] at hnws
            exact absurd hnws (by decide)
          rcases mem_splitOnChar_exists '|' _ ch hch with he | ⟨o, ho, hcho⟩
          · rw [he] at hclass
            exact hclass (by decide)
          · rcases List.mem_iff_getElem?.mp ho with ⟨j, hj⟩
            have hj' : (parseTableRow row)[j]? = some o := hj
            have hcell' : (mapWithIndex (fun col cell =>
                processTableCell maxCols false col cell
                  (normalizeIdeographicSpaces cell)) 0 (parseTableRow row))[j]? =
                some (processTableCell maxCols false (0 + j) o
                  (normalizeIdeographicSpaces o)) := by
              rw [mapWithIndex_getElem?, hj']
              rfl
            have hchin : ch ∈ processTableCell maxCols false (0 + j) o
                (normalizeIdeographicSpaces o) := by
              rcases processTableCell_cases maxCols false (0 + j) o
                (normalizeIdeographicSpaces o) with hc | hc | ⟨n, hc⟩
              · rw [hc]
                exact hcho
              · rw [hc]
                exact mem_normalize_of_mem o ch hcho hIS
              · rw [hc]
                exact mem_compensate_of_not_ws _ n ch
                  (mem_normalize_of_mem o ch hcho hIS) hnws
            have hfin := hall' ch (mem_joinWith_of_mem '|' _ _ ch
              (List.mem_iff_getElem?.mpr ⟨j, hcell'⟩) hchin)
            exact hclass hfin
      rw [hnsep] at hsepr
      exact Bool.noConfusion hsepr

/-! ### Table-level behaviour -/

theorem processTable_passive_eq (rows : List Str)
    (hc : ¬(((rows.map normalizeIdeographicSpaces).any fun row =>
        decide (0 < countEmoji row)) = true ∧ 2 ≤ rows.length)) :
    processTable rows = rows.map normalizeIdeographicSpaces := by
  simp only [processTable]
  rw [if_pos]
  rcases not_and_or.mp hc with h | h
  · exact Or.inl (Bool.eq_false_iff.mpr h)
  · right
    rw [List.length_map, List.length_map]
    omega

theorem processTable_length (rows : List Str) :
    (processTable rows).length = rows.length := by
  by_cases hc : ((rows.map normalizeIdeographicSpaces).any fun row =>
      decide (0 < countEmoji row)) = true ∧ 2 ≤ rows.length
  · rw [processTable_main_eq rows hc.1 hc.2, mapWithIndex_length]
  · rw [processTable_passive_eq rows hc, List.length_map]

theorem processTable_tableRows (rows : List Str)
    (hrows : ∀ r ∈ rows, isTableRow r = true) :
    ∀ r ∈ processTable rows, isTableRow r = true := by
  intro r hr
  by_cases hc : ((rows.map normalizeIdeographicSpaces).any fun row =>
      decide (0 < countEmoji row)) = true ∧ 2 ≤ rows.length
  · rw [processTable_main_eq rows hc.1 hc.2] at hr
    rcases exists_of_mem_mapWithIndex _ _ _ _ hr with ⟨i, row, hi, hrow⟩
    subst hrow
    exact isTableRow_buildTableRow _
  · rw [processTable_passive_eq rows hc] at hr
    rcases List.mem_map.mp hr with ⟨row, hrow, hr'⟩
    subst hr'
    rw [isTableRow_normalize]
    exact hrows row hrow

theorem processedRow_emoji_getD (maxCols : List Nat) (b : Bool) (row : Str)
    (col : Nat) :
    countEmoji ((List.map normalizeIdeographicSpaces (mapWithIndex (fun c cell =>
      processTableCell maxCols b c cell (normalizeIdeographicSpaces cell)) 0
      (parseTableRow row))).getD col []) =
    countEmoji ((List.map normalizeIdeographicSpaces (parseTableRow row)).getD
      col []) := by
  rw [List.getD_eq_getElem?_getD, List.getD_eq_getElem?_getD,
    List.getElem?_map, List.getElem?_map, mapWithIndex_getElem?]
  rcases hc : (parseTableRow row)[col]? with _ | cell
  · rfl
  · simp only [Option.map_some', Option.getD_some]
    rw [countEmoji_normalize, countEmoji_processTableCell, countEmoji_normalize]

theorem calculateMaxEmojiPerColumn_congr (A B : List (List Str)) (n : Nat)
    (h : ∀ col : Nat, (A.drop 2).map (fun row => countEmoji (row.getD col [])) =
      (B.drop 2).map (fun row => countEmoji (row.getD col []))) :
    calculateMaxEmojiPerColumn A n = calculateMaxEmojiPerColumn B n := by
  unfold calculateMaxEmojiPerColumn
  exact List.map_congr_left fun col _ => by rw [h col]

theorem mapWithIndex_idem {α : Type} (f : Nat → α → α)
    (h : ∀ i a, f i (f i a) = f i a) (n : Nat) (l : List α) :
    mapWithIndex f n (mapWithIndex f n l) = mapWithIndex f n l := by
  induction l generalizing n with
  | nil => rfl
  | cons a t ih => simp only [mapWithIndex, h n a, ih (n + 1)]

set_option maxHeartbeats 2000000 in
/-- The table processor is idempotent on lists of table rows: the heart of
the idempotence of `fixTableAlignment`. -/
theorem processTable_stable (rows : List Str)
    (hrows : ∀ r ∈ rows, isTableRow r = true) :
    processTable (processTable rows) = processTable rows := by
  have hmapidem : (rows.map normalizeIdeographicSpaces).map
      normalizeIdeographicSpaces = rows.map normalizeIdeographicSpaces := by
    rw [List.map_map]
    exact List.map_congr_left fun r _ => normalize_idem r
  by_cases hc : ((rows.map normalizeIdeographicSpaces).any fun row =>
      decide (0 < countEmoji row)) = true ∧ 2 ≤ rows.length
  case neg =>
    have hP := processTable_passive_eq rows hc
    rw [hP]
    have hc2 : ¬((((rows.map normalizeIdeographicSpaces).map
        normalizeIdeographicSpaces).any fun row =>
          decide (0 < countEmoji row)) = true ∧
        2 ≤ (rows.map normalizeIdeographicSpaces).length) := by
      rw [hmapidem, List.length_map]
      exact hc
    rw [processTable_passive_eq _ hc2, hmapidem]
  case pos =>
    obtain ⟨hany, hlen⟩ := hc
    have hPT := processTable_main_eq rows hany hlen
    generalize hMeq : calculateMaxEmojiPerColumn
        (rows.map fun r => (parseTableRow r).map normalizeIdeographicSpaces)
        (((rows.map fun r =>
            (parseTableRow r).map normalizeIdeographicSpaces).map
          List.length).foldl max 0) = M at hPT
    have hget : ∀ i : Nat, (processTable rows)[i]? = (rows[i]?).map (fun row =>
        buildTableRow (mapWithIndex (fun col cell =>
          processTableCell M (i == 1) col cell (normalizeIdeographicSpaces cell))
          0 (parseTableRow row))) := by
      intro i
      rw [hPT, mapWithIndex_getElem?, Nat.zero_add]
    have hrow_at : ∀ i row, rows[i]? = some row → isTableRow row = true :=
      fun i row hi => hrows row (List.mem_iff_getElem?.mpr ⟨i, hi⟩)
    have hemoji : ∀ i row, rows[i]? = some row →
        countEmoji (normalizeIdeographicSpaces (buildTableRow (mapWithIndex
          (fun col cell => processTableCell M (i == 1) col cell
            (normalizeIdeographicSpaces cell))
          0 (parseTableRow row)))) =
        countEmoji (normalizeIdeographicSpaces row) := by
      intro i row hi
      rw [countEmoji_normalize, countEmoji_processedRow _ _ _ (hrow_at i row hi)]
    have hany2 : (((processTable rows).map normalizeIdeographicSpaces).any
        fun row => decide (0 < countEmoji row)) = true := by
      rcases List.any_eq_true.mp hany with ⟨x, hx, hfx⟩
      rcases List.mem_map.mp hx with ⟨row, hrowm, hxeq⟩
      subst hxeq
      rcases List.mem_iff_getElem?.mp hrowm with ⟨i, hi⟩
      apply List.any_eq_true.mpr
      refine ⟨normalizeIdeographicSpaces (buildTableRow (mapWithIndex
        (fun col cell => processTableCell M (i == 1) col cell
          (normalizeIdeographicSpaces cell))
        0 (parseTableRow row))), ?_, ?_⟩
      · apply List.mem_iff_getElem?.mpr
        refine ⟨i, ?_⟩
        rw [List.getElem?_map, hget i, hi]
        rfl
      · rw [decide_eq_true_eq] at hfx ⊢
        rw [hemoji i row hi]
        exact hfx
    have hlen2 : 2 ≤ (processTable rows).length := by
      rw [processTable_length]
      exact hlen
    have hPT2 := processTable_main_eq (processTable rows) hany2 hlen2
    have hlenlist : (((processTable rows).map fun r =>
        (parseTableRow r).map normalizeIdeographicSpaces).map List.length) =
        ((rows.map fun r => (parseTableRow r).map normalizeIdeographicSpaces).map
          List.length) := by
      apply List.ext_getElem?
      intro n
      simp only [List.getElem?_map]
      rw [hget n]
      rcases hn : rows[n]? with _ | row
      · rfl
      · simp only [Option.map_some', Option.some.injEq]
        rw [List.length_map, List.length_map, parse_build_processedCells,
          mapWithIndex_length]
    have hprof : ∀ col : Nat,
        ((((processTable rows).map fun r =>
          (parseTableRow r).map normalizeIdeographicSpaces).drop 2).map
          fun row => countEmoji (row.getD col [])) =
        (((rows.map fun r =>
          (parseTableRow r).map normalizeIdeographicSpaces).drop 2).map
          fun row => countEmoji (row.getD col [])) := by
      intro col
      apply List.ext_getElem?
      intro n
      simp only [List.getElem?_map, List.getElem?_drop]
      rw [hget (2 + n)]
      rcases hn : rows[2 + n]? with _ | row
      · rfl
      · simp only [Option.map_some', Option.some.injEq]
        rw [parse_build_processedCells]
        exact processedRow_emoji_getD _ _ row col
    have hM : calculateMaxEmojiPerColumn ((processTable rows).map fun r =>
          (parseTableRow r).map normalizeIdeographicSpaces)
          ((((processTable rows).map fun r =>
            (parseTableRow r).map normalizeIdeographicSpaces).map
            List.length).foldl max 0) = M := by
      rw [hlenlist]
      exact (calculateMaxEmojiPerColumn_congr _ _ _ hprof).trans hMeq
    rw [hM] at hPT2
    rw [hPT2, hPT]
    apply mapWithIndex_idem
    intro i row
    dsimp only
    rw [parse_build_processedCells]
    apply congrArg buildTableRow
    apply mapWithIndex_idem
    intro col cell
    dsimp only
    exact processTableCell_stable M (i == 1) col cell

/-! ### Scanner-level lemmas -/

theorem takeWhile_append_all {α : Type} (p : α → Bool) (A B : List α)
    (h : ∀ a ∈ A, p a = true) :
    (A ++ B).takeWhile p = A ++ B.takeWhile p := by
  induction A with
  | nil => rfl
  | cons a t ih =>
    simp only [List.cons_append, List.takeWhile_cons_of_pos (h a (by simp))]
    rw [ih (fun x hx => h x (List.mem_cons_of_mem _ hx))]

theorem dropWhile_append_all {α : Type} (p : α → Bool) (A B : List α)
    (h : ∀ a ∈ A, p a = true) :
    (A ++ B).dropWhile p = B.dropWhile p := by
  induction A with
  | nil => rfl
  | cons a t ih =>
    simp only [List.cons_append, List.dropWhile_cons_of_pos (h a (by simp))]
    exact ih (fun x hx => h x (List.mem_cons_of_mem _ hx))

theorem sep_isTableRow (r : Str) (h : isTableSeparatorLine r = true) :
    isTableRow r = true := by
  simp only [isTableSeparatorLine, Bool.and_eq_true] at h
  simp only [isTableRow, Bool.and_eq_true]
  exact ⟨h.1.1.2, h.1.2⟩

theorem fenceStart_head (l : Str) (h : isCodeFenceStart l = true) :
    (trim l).head? = some '`' ∨ (trim l).head? = some '~' := by
  simp only [isCodeFenceStart, Bool.or_eq_true, beq_iff_eq] at h
  rcases ht : trim l with _ | ⟨c, t⟩ <;> rw [ht] at h
  · rcases h with h | h <;> exact absurd h (by decide)
  · simp only [List.take_succ_cons, List.cons.injEq] at h
    rcases h with ⟨hc, _⟩ | ⟨hc, _⟩
    · left
      rw [List.head?_cons, hc]
    · right
      rw [List.head?_cons, hc]

theorem tableRow_not_fenceStart (l : Str) (h : isTableRow l = true) :
    isCodeFenceStart l = false := by
  rcases hf : isCodeFenceStart l with _ | _
  · rfl
  · exfalso
    simp only [isTableRow, Bool.and_eq_true, beq_iff_eq] at h
    rcases fenceStart_head l hf with hh | hh <;>
      rw [h.1] at hh <;> exact absurd hh (by decide)

theorem tableRow_contains_pipe (l : Str) (h : isTableRow l = true) :
    l.contains '|' = true := by
  simp only [isTableRow, Bool.and_eq_true, beq_iff_eq] at h
  have hmem : '|' ∈ trim l := by
    rcases ht : trim l with _ | ⟨c, t⟩ <;> rw [ht] at h
    · exact absurd h.1 (by decide)
    · simp only [List.head?_cons, Option.some.injEq] at h
      rw [← h.1]
      exact List.mem_cons_self _ _
  have hl : '|' ∈ l := mem_trim l '|' hmem
  simpa using hl

theorem sepCell_chars (row : Str) (hsep : isTableSeparatorLine row = true)
    (orig : Str) (ho : orig ∈ parseTableRow row) (ch : Char) (hch : ch ∈ orig) :
    isWs ch = true ∨ ch = ':' ∨ ch = '-' := by
  obtain ⟨hdec, hne, hall⟩ := isTableSeparatorLine_decomp row hsep
  have h1 := hall ch (mem_of_mem_splitOnChar '|' _ orig ch ho hch)
  have hnp : '|' ∉ orig := pipe_not_mem_parseTableRow row orig ho
  have hchp : ch ≠ '|' := fun he => hnp (he ▸ hch)
  simp only [isSeparatorInnerChar, Bool.or_eq_true, beq_iff_eq] at h1
  rcases h1 with ((h | h) | h) | h
  · exact Or.inl h
  · exact Or.inr (Or.inl h)
  · exact absurd h hchp
  · exact Or.inr (Or.inr h)

theorem processTable_row1_sep (rows : List Str) (r : Str)
    (h1 : rows[1]? = some r) (hsep : isTableSeparatorLine r = true) :
    ∃ r', (processTable rows)[1]? = some r' ∧
      isTableSeparatorLine r' = true := by
  by_cases hc : ((rows.map normalizeIdeographicSpaces).any fun row =>
      decide (0 < countEmoji row)) = true ∧ 2 ≤ rows.length
  · have hPT := processTable_main_eq rows hc.1 hc.2
    generalize hMeq : calculateMaxEmojiPerColumn
        (rows.map fun r => (parseTableRow r).map normalizeIdeographicSpaces)
        (((rows.map fun r =>
            (parseTableRow r).map normalizeIdeographicSpaces).map
          List.length).foldl max 0) = M at hPT
    refine ⟨buildTableRow (mapWithIndex (fun col cell =>
      processTableCell M true col cell (normalizeIdeographicSpaces cell))
      0 (parseTableRow r)), ?_, processedRow_sep M r hsep⟩
    rw [hPT, mapWithIndex_getElem?, h1]
    rfl
  · have hPT := processTable_passive_eq rows hc
    refine ⟨normalizeIdeographicSpaces r, ?_, ?_⟩
    · rw [hPT, List.getElem?_map, h1]
      rfl
    · rw [isTableSeparatorLine_normalize]
      exact hsep

theorem processTable_row0_not_sep (rows : List Str) (r : Str)
    (h0 : rows[0]? = some r) (hrow : isTableRow r = true)
    (hnsep : isTableSeparatorLine r = false) :
    ∃ r', (processTable rows)[0]? = some r' ∧
      isTableSeparatorLine r' = false := by
  by_cases hc : ((rows.map normalizeIdeographicSpaces).any fun row =>
      decide (0 < countEmoji row)) = true ∧ 2 ≤ rows.length
  · have hPT := processTable_main_eq rows hc.1 hc.2
    generalize hMeq : calculateMaxEmojiPerColumn
        (rows.map fun r => (parseTableRow r).map normalizeIdeographicSpaces)
        (((rows.map fun r =>
            (parseTableRow r).map normalizeIdeographicSpaces).map
          List.length).foldl max 0) = M at hPT
    refine ⟨buildTableRow (mapWithIndex (fun col cell =>
      processTableCell M false col cell (normalizeIdeographicSpaces cell))
      0 (parseTableRow r)), ?_, processedRow_not_sep M r hrow hnsep⟩
    rw [hPT, mapWithIndex_getElem?, h0]
    rfl
  · have hPT := processTable_passive_eq rows hc
    refine ⟨normalizeIdeographicSpaces r, ?_, ?_⟩
    · rw [hPT, List.getElem?_map, h0]
      rfl
    · rw [isTableSeparatorLine_normalize]
      exact hnsep

theorem traverseAux_zeroProgress (proc : List Str → List Str)
    (l r : Str) (rest : List Str) (cf : Str)
    (hpipe : l.contains '|' = true) (hrow : isTableRow l = false)
    (hfence : isCodeFenceStart l = false)
    (hsep : isTableSeparatorLine r = true) :
    ∀ fuel : Nat,
      traverseMarkdownTablesAux proc fuel (l :: r :: rest) false cf = none := by
  intro fuel
  induction fuel with
  | zero => rfl
  | succ fuel ih =>
    simp only [traverseMarkdownTablesAux]
    have hst : handleCodeFence l false cf = (false, cf) := by
      simp [handleCodeFence, hfence]
    rw [hst]
    simp only [Bool.or_false, Bool.false_or, if_false]
    rw [if_neg (by simp), if_pos (by simp only [Bool.and_eq_true]; exact ⟨hpipe, hsep⟩),
      List.dropWhile_cons_of_neg (by simp [hrow]), ih]
    rfl

set_option maxHeartbeats 1000000 in
theorem traverseAux_stable (fuel : Nat) :
    ∀ (lines : List Str) (inB : Bool) (cf : Str) (out : List Str),
    traverseMarkdownTablesAux processTable fuel lines inB cf = some out →
    traverseMarkdownTablesAux processTable fuel out inB cf = some out ∧
      (out = [] ↔ lines = []) ∧
      (∀ hd, lines.head? = some hd → isTableRow hd = false →
        out.head? = some hd) ∧
      (∀ hd hd', lines.head? = some hd → out.head? = some hd' →
        isTableSeparatorLine hd = false → isTableSeparatorLine hd' = false) := by
  induction fuel with
  | zero =>
    intro lines inB cf out h
    exact absurd h (by simp [traverseMarkdownTablesAux])
  | succ fuel ih =>
    intro lines inB cf out h
    cases lines with
    | nil =>
      simp only [traverseMarkdownTablesAux, Option.some.injEq] at h
      subst h
      exact ⟨rfl, by simp, by simp, by simp⟩
    | cons line rest =>
      simp only [traverseMarkdownTablesAux] at h
      split at h
      · next hbr =>
        rcases Option.map_eq_some'.mp h with ⟨out', hrec, hout⟩
        subst hout
        obtain ⟨h1', h4', h2', h3'⟩ := ih rest _ _ out' hrec
        refine ⟨?_, by simp, ?_, ?_⟩
        · simp only [traverseMarkdownTablesAux]
          rw [if_pos hbr, h1']
          rfl
        · intro hd hhd _
          simp only [List.head?_cons, Option.some.injEq] at hhd ⊢
          exact hhd
        · intro hd hd' hhd hhd' hns
          simp only [List.head?_cons, Option.some.injEq] at hhd hhd'
          rw [← hhd', hhd]
          exact hns
      · next hbr =>
        split at h
        · next htab =>
          have hbr' := hbr
          simp only [Bool.or_eq_true, not_or, Bool.not_eq_true] at hbr'
          obtain ⟨hst1, hib⟩ := hbr'
          subst hib
          have hfs : isCodeFenceStart line = false := by
            rcases hc : isCodeFenceStart line with _ | _
            · rfl
            · rw [show handleCodeFence line false cf =
                (true, fenceMarkerOf line) from by simp [handleCodeFence, hc]]
                at hst1
              exact Bool.noConfusion hst1
          have hstcf : handleCodeFence line false cf = (false, cf) := by
            simp [handleCodeFence, hfs]
          simp only [hstcf] at h
          simp only [Bool.and_eq_true] at htab
          obtain ⟨hpipe, hmatch⟩ := htab
          rcases rest with _ | ⟨next, rest₂⟩
          · exact absurd hmatch (by decide)
          have hsepn : isTableSeparatorLine next = true := hmatch
          rcases Option.map_eq_some'.mp h with ⟨out', hrec, hout⟩
          subst hout
          have hrowl : isTableRow line = true := by
            rcases hr : isTableRow line with _ | _
            · exfalso
              rw [List.dropWhile_cons_of_neg (by simp [hr]),
                traverseAux_zeroProgress processTable line next rest₂ cf
                  hpipe hr hfs hsepn fuel] at hrec
              exact Option.noConfusion hrec
            · rfl
          have hrownext : isTableRow next = true := sep_isTableRow next hsepn
          have hblock : (line :: next :: rest₂).takeWhile isTableRow =
              line :: next :: rest₂.takeWhile isTableRow := by
            rw [List.takeWhile_cons_of_pos hrowl,
              List.takeWhile_cons_of_pos hrownext]
          obtain ⟨h1', h4', h2', h3'⟩ := ih _ _ _ _ hrec
          have hballt : ∀ b ∈ (line :: next :: rest₂).takeWhile isTableRow,
              isTableRow b = true := fun b hb => List.mem_takeWhile_imp hb
          have hPBrows : ∀ r ∈ processTable
              ((line :: next :: rest₂).takeWhile isTableRow),
              isTableRow r = true := processTable_tableRows _ hballt
          have hPBlen : (processTable
              ((line :: next :: rest₂).takeWhile isTableRow)).length =
              ((line :: next :: rest₂).takeWhile isTableRow).length :=
            processTable_length _
          have hbl0 : ((line :: next :: rest₂).takeWhile isTableRow)[0]? =
              some line := by
            rw [hblock]
            rfl
          have hbl1 : ((line :: next :: rest₂).takeWhile isTableRow)[1]? =
              some next := by
            rw [hblock]
            simp
          obtain ⟨r0, PBtail, hPBeq⟩ : ∃ r0 PBtail,
              processTable ((line :: next :: rest₂).takeWhile isTableRow) =
                r0 :: PBtail := by
            rcases hp : processTable
                ((line :: next :: rest₂).takeWhile isTableRow) with _ | ⟨a, t⟩
            · exfalso
              rw [hp] at hPBlen
              rw [hblock] at hPBlen
              simp at hPBlen
            · exact ⟨a, t, rfl⟩
          obtain ⟨r1, hr1, hr1sep⟩ := processTable_row1_sep _ next hbl1 hsepn
          rw [hPBeq] at hr1
          obtain ⟨PBtail₂, hPBt⟩ : ∃ PBtail₂, PBtail = r1 :: PBtail₂ := by
            rcases hp : PBtail with _ | ⟨a, t⟩
            · rw [hp] at hr1
              exact Option.noConfusion hr1
            · rw [hp, List.getElem?_cons_succ, List.getElem?_cons_zero] at hr1
              exact ⟨t, by rw [Option.some.inj hr1]⟩
          subst hPBt
          have hr0row : isTableRow r0 = true :=
            hPBrows r0 (by rw [hPBeq]; simp)
          have hr1row : isTableRow r1 = true :=
            hPBrows r1 (by rw [hPBeq]; simp)
          have hPBall : ∀ b ∈ r0 :: r1 :: PBtail₂, isTableRow b = true := by
            rw [← hPBeq]
            exact hPBrows
          have hr0fence : isCodeFenceStart r0 = false :=
            tableRow_not_fenceStart r0 hr0row
          have hr0pipe : r0.contains '|' = true := tableRow_contains_pipe r0 hr0row
          have hstr0 : handleCodeFence r0 false cf = (false, cf) := by
            simp [handleCodeFence, hr0fence]
          have houtT : List.takeWhile isTableRow (r0 :: r1 :: (PBtail₂ ++ out')) =
              (r0 :: r1 :: PBtail₂) ++ List.takeWhile isTableRow out' := by
            have hta := takeWhile_append_all isTableRow (r0 :: r1 :: PBtail₂)
              out' hPBall
            rwa [List.cons_append, List.cons_append] at hta
          have houtD : List.dropWhile isTableRow (r0 :: r1 :: (PBtail₂ ++ out')) =
              List.dropWhile isTableRow out' := by
            have hta := dropWhile_append_all isTableRow (r0 :: r1 :: PBtail₂)
              out' hPBall
            rwa [List.cons_append, List.cons_append] at hta
          have houtTD : out'.takeWhile isTableRow = [] ∧
              out'.dropWhile isTableRow = out' := by
            rcases hrm : (line :: next :: rest₂).dropWhile isTableRow
              with _ | ⟨m0, mrest⟩
            · rw [hrm] at h4'
              have hout0 : out' = [] := h4'.mpr rfl
              rw [hout0]
              exact ⟨rfl, rfl⟩
            · have hm0 : isTableRow m0 = false := by
                have hh := List.head?_dropWhile_not isTableRow
                  (line :: next :: rest₂)
                rw [hrm] at hh
                simpa using hh
              rw [hrm] at h2'
              have hohead : out'.head? = some m0 := h2' m0 rfl hm0
              rcases ho : out' with _ | ⟨o0, orest⟩
              · rw [ho] at hohead
                exact Option.noConfusion hohead
              · rw [ho] at hohead
                simp only [List.head?_cons, Option.some.injEq] at hohead
                subst hohead
                rw [List.takeWhile_cons_of_neg (by simp [hm0]),
                  List.dropWhile_cons_of_neg (by simp [hm0])]
                exact ⟨rfl, rfl⟩
          refine ⟨?_, ?_, ?_, ?_⟩
          · rw [hPBeq, List.cons_append, List.cons_append]
            simp only [traverseMarkdownTablesAux, hstr0]
            rw [if_neg (by simp), if_pos (by
              simp only [Bool.and_eq_true]
              exact ⟨hr0pipe, hr1sep⟩)]
            rw [houtT, houtTD.1, List.append_nil, ← hPBeq,
              processTable_stable _ hballt, houtD, houtTD.2, h1', hPBeq]
            rfl
          · rw [hPBeq]
            simp
          · intro hd hhd hr
            simp only [List.head?_cons, Option.some.injEq] at hhd
            rw [← hhd, hrowl] at hr
            exact Bool.noConfusion hr
          · intro hd hd' hhd hhd' hns
            simp only [List.head?_cons, Option.some.injEq] at hhd
            rw [hPBeq] at hhd'
            simp only [List.cons_append, List.head?_cons,
              Option.some.injEq] at hhd'
            subst hhd
            obtain ⟨r0', hr0', hr0ns⟩ :=
              processTable_row0_not_sep _ line hbl0 hrowl hns
            have hr0eq : r0' = r0 := by
              rw [hPBeq, List.getElem?_cons_zero] at hr0'
              exact (Option.some.inj hr0').symm
            rw [← hhd', ← hr0eq]
            exact hr0ns
        · next htab =>
          rcases Option.map_eq_some'.mp h with ⟨out', hrec, hout⟩
          subst hout
          obtain ⟨h1', h4', h2', h3'⟩ := ih rest _ _ out' hrec
          refine ⟨?_, by simp, ?_, ?_⟩
          · simp only [traverseMarkdownTablesAux]
            rw [if_neg hbr, if_neg ?hguard]
            · rw [h1']
              rfl
            case hguard =>
              simp only [Bool.and_eq_true, not_and] at htab ⊢
              intro hpipe
              have hmr := htab hpipe
              rcases rest with _ | ⟨next, rest₂⟩
              · have hout0 : out' = [] := h4'.mpr rfl
                rw [hout0]
                simp
              · have hnsep : isTableSeparatorLine next = false := by
                  rcases hx : isTableSeparatorLine next with _ | _
                  · rfl
                  · exact absurd hx hmr
                have hone : out' ≠ [] := by
                  intro habs
                  exact List.noConfusion (h4'.mp habs)
                rcases ho : out' with _ | ⟨o0, orest⟩
                · exact absurd ho hone
                · have hohead : out'.head? = some o0 := by
                    rw [ho]
                    rfl
                  have hsep0 := h3' next o0 rfl hohead hnsep
                  simp [hsep0]
          · intro hd hhd _
            simp only [List.head?_cons, Option.some.injEq] at hhd ⊢
            exact hhd
          · intro hd hd' hhd hhd' hns
            simp only [List.head?_cons, Option.some.injEq] at hhd hhd'
            rw [← hhd', hhd]
            exact hns

theorem mem_processTable_chars (rows : List Str) (r : Str)
    (hr : r ∈ processTable rows) (ch : Char) (hch : ch ∈ r) :
    ch = ' ' ∨ ch = ideographicSpace ∨ ch = '|' ∨ ∃ row ∈ rows, ch ∈ row := by
  by_cases hc : ((rows.map normalizeIdeographicSpaces).any fun row =>
      decide (0 < countEmoji row)) = true ∧ 2 ≤ rows.length
  · have hPT := processTable_main_eq rows hc.1 hc.2
    generalize hMeq : calculateMaxEmojiPerColumn
        (rows.map fun r => (parseTableRow r).map normalizeIdeographicSpaces)
        (((rows.map fun r =>
            (parseTableRow r).map normalizeIdeographicSpaces).map
          List.length).foldl max 0) = M at hPT
    rw [hPT] at hr
    rcases exists_of_mem_mapWithIndex _ _ _ _ hr with ⟨i, row, hi, hre⟩
    subst hre
    have hrowmem : row ∈ rows := List.mem_iff_getElem?.mpr ⟨i, hi⟩
    simp only [buildTableRow] at hch
    rcases List.mem_append.mp hch with hch | hch
    · rcases List.mem_cons.mp hch with hch | hch
      · exact Or.inr (Or.inr (Or.inl hch))
      · rcases mem_joinWith '|' _ ch hch with hsep | ⟨cell, hcell, hchc⟩
        · exact Or.inr (Or.inr (Or.inl hsep))
        · rcases exists_of_mem_mapWithIndex _ _ _ _ hcell with ⟨j, orig, hj, hce⟩
          subst hce
          rcases mem_processTableCell M _ _ orig ch hchc with h | h | h
          · exact Or.inr (Or.inl h)
          · exact Or.inl h
          · have hcr : ch ∈ row := mem_of_mem_parseTableRow row orig ch
              (List.mem_iff_getElem?.mpr ⟨j, hj⟩) h
            exact Or.inr (Or.inr (Or.inr ⟨row, hrowmem, hcr⟩))
    · rw [List.mem_singleton.mp hch]
      exact Or.inr (Or.inr (Or.inl rfl))
  · rw [processTable_passive_eq rows hc] at hr
    rcases List.mem_map.mp hr with ⟨row, hrow, hre⟩
    subst hre
    rcases mem_normalize row ch hch with h | h
    · exact Or.inl h
    · exact Or.inr (Or.inr (Or.inr ⟨row, hrow, h⟩))

theorem processTable_no_newline (rows : List Str)
    (h : ∀ row ∈ rows, '\n' ∉ row) :
    ∀ r ∈ processTable rows, '\n' ∉ r := by
  intro r hr habs
  rcases mem_processTable_chars rows r hr '\n' habs with h1 | h1 | h1 |
    ⟨row, hrow, h1⟩
  · exact absurd h1 (by decide)
  · exact absurd h1 (by decide)
  · exact absurd h1 (by decide)
  · exact h row hrow h1

theorem traverseAux_no_newline :
    ∀ (fuel : Nat) (lines : List Str) (inB : Bool) (cf : Str)
      (out : List Str),
    traverseMarkdownTablesAux processTable fuel lines inB cf = some out →
    (∀ l ∈ lines, '\n' ∉ l) → ∀ l ∈ out, '\n' ∉ l := by
  intro fuel
  induction fuel with
  | zero =>
    intro lines inB cf out h
    exact absurd h (by simp [traverseMarkdownTablesAux])
  | succ fuel ih =>
    intro lines inB cf out h hln
    cases lines with
    | nil =>
      simp only [traverseMarkdownTablesAux, Option.some.injEq] at h
      subst h
      exact fun l hl => absurd hl (List.not_mem_nil l)
    | cons line rest =>
      simp only [traverseMarkdownTablesAux] at h
      split at h
      · rcases Option.map_eq_some'.mp h with ⟨out', hrec, hout⟩
        subst hout
        intro l hl
        rcases List.mem_cons.mp hl with hl | hl
        · rw [hl]
          exact hln line (List.mem_cons_self _ _)
        · exact ih rest _ _ out' hrec
            (fun x hx => hln x (List.mem_cons_of_mem _ hx)) l hl
      · split at h
        · rcases Option.map_eq_some'.mp h with ⟨out', hrec, hout⟩
          subst hout
          intro l hl
          rcases List.mem_append.mp hl with hl | hl
          · refine processTable_no_newline _ ?_ l hl
            intro row hrow
            exact hln row ((List.takeWhile_sublist _).mem hrow)
          · exact ih _ _ _ out' hrec
              (fun x hx => hln x ((List.dropWhile_sublist _).mem hx)) l hl
        · rcases Option.map_eq_some'.mp h with ⟨out', hrec, hout⟩
          subst hout
          intro l hl
          rcases List.mem_cons.mp hl with hl | hl
          · rw [hl]
            exact hln line (List.mem_cons_self _ _)
          · exact ih rest _ _ out' hrec
              (fun x hx => hln x (List.mem_cons_of_mem _ hx)) l hl

theorem mapWithIndexOpt_eq_some {α β : Type} (f : Nat → α → Option β)
    (g : Nat → α → β) (i : Nat) (l : List α)
    (h : ∀ j a, l[j]? = some a → f (i + j) a = some (g (i + j) a)) :
    mapWithIndexOpt f i l = some (mapWithIndex g i l) := by
  induction l generalizing i with
  | nil => rfl
  | cons a t ih =>
    simp only [mapWithIndexOpt, mapWithIndex]
    have h0 : f i a = some (g i a) := by simpa using h 0 a (by simp)
    rw [h0, ih (i + 1) (fun j b hb => by
      have hjb := h (j + 1) b (by simpa using hb)
      have e : i + (j + 1) = i + 1 + j := by omega
      rwa [e] at hjb)]

theorem rowCellsOpt_eq (M : List Nat) (sep : Bool) (orig : List Str) :
    mapWithIndexOpt (fun col originalCell =>
      (((orig.map normalizeIdeographicSpaces))[col]?).map fun cleanedCell =>
        processTableCell M sep col originalCell cleanedCell) 0 orig =
    some (mapWithIndex (fun col originalCell =>
      processTableCell M sep col originalCell
        ((orig.map normalizeIdeographicSpaces).getD col [])) 0 orig) := by
  apply mapWithIndexOpt_eq_some
  intro j a hj
  have hj' : orig[0 + j]? = some a := by rwa [Nat.zero_add]
  rw [List.getElem?_map, hj']
  simp only [Option.map_some']
  rw [List.getD_eq_getElem?_getD, List.getElem?_map, hj']
  rfl

theorem processTableE_eq (tableRows : List Str) :
    processTableE tableRows = Except.ok (processTable tableRows) := by
  simp only [processTableE, processTable]
  split
  · rfl
  · rw [mapWithIndexOpt_eq_some _ _ 0 _ ?_]
    intro j rowPair hj
    obtain ⟨o, c⟩ := rowPair
    obtain ⟨h1, h2⟩ := List.getElem?_zip_eq_some.mp hj
    rw [List.getElem?_map] at h1
    rcases Option.map_eq_some'.mp h1 with ⟨row, hrow, ho⟩
    rw [List.getElem?_map, List.getElem?_map, hrow] at h2
    simp only [Option.map_some', Option.some.injEq] at h2
    dsimp only at ho h2 ⊢
    rw [parseTableRow_normalize, ho] at h2
    subst h2
    subst ho
    rw [rowCellsOpt_eq]
    rfl

theorem traverseAuxE_eq (proc : List Str → List Str)
    (procE : List Str → Except Unit (List Str))
    (hproc : ∀ b, procE b = Except.ok (proc b)) (fuel : Nat) :
    ∀ (lines : List Str) (inB : Bool) (cf : Str),
    traverseMarkdownTablesAuxE procE fuel lines inB cf =
      (traverseMarkdownTablesAux proc fuel lines inB cf).map Except.ok := by
  induction fuel with
  | zero =>
    intro lines inB cf
    rfl
  | succ fuel ih =>
    intro lines inB cf
    cases lines with
    | nil => rfl
    | cons line rest =>
      simp only [traverseMarkdownTablesAuxE, traverseMarkdownTablesAux]
      split
      · rw [ih]
        cases traverseMarkdownTablesAux proc fuel rest
          (handleCodeFence line inB cf).1 (handleCodeFence line inB cf).2 <;> rfl
      · split
        · rw [ih, hproc]
          cases traverseMarkdownTablesAux proc fuel
            ((line :: rest).dropWhile isTableRow)
            (handleCodeFence line inB cf).1 (handleCodeFence line inB cf).2 <;> rfl
        · rw [ih]
          cases traverseMarkdownTablesAux proc fuel rest
            (handleCodeFence line inB cf).1 (handleCodeFence line inB cf).2 <;> rfl

theorem fenceFlags_tableBlock (cf : Str) (block rest : List Str)
    (hb : ∀ b ∈ block, isTableRow b = true) :
    fenceFlags false cf (block ++ rest) =
      block.map (fun _ => false) ++ fenceFlags false cf rest := by
  induction block with
  | nil => rfl
  | cons b t ih =>
    have hst : handleCodeFence b false cf = (false, cf) := by
      simp [handleCodeFence, tableRow_not_fenceStart b (hb b (by simp))]
    simp only [List.cons_append, fenceFlags, hst, List.map_cons, Bool.or_false,
      List.append_eq]
    rw [ih (fun x hx => hb x (List.mem_cons_of_mem _ hx))]

theorem traverseAux_fence (proc : List Str → List Str)
    (hlen : ∀ b, (proc b).length = b.length) :
    ∀ fuel : Nat, ∀ (lines : List Str) (inB : Bool) (cf : Str)
      (out : List Str),
    traverseMarkdownTablesAux proc fuel lines inB cf = some out →
    out.length = lines.length ∧
      ∀ i : Nat, (fenceFlags inB cf lines)[i]? = some true →
        out[i]? = lines[i]? := by
  intro fuel
  induction fuel with
  | zero =>
    intro lines inB cf out h
    exact absurd h (by simp [traverseMarkdownTablesAux])
  | succ fuel ih =>
    intro lines inB cf out h
    cases lines with
    | nil =>
      simp only [traverseMarkdownTablesAux, Option.some.injEq] at h
      subst h
      exact ⟨rfl, fun i hi => by simp [fenceFlags] at hi⟩
    | cons line rest =>
      simp only [traverseMarkdownTablesAux] at h
      split at h
      · next hbr =>
        rcases Option.map_eq_some'.mp h with ⟨out', hrec, hout⟩
        subst hout
        obtain ⟨hl, hf⟩ := ih rest _ _ out' hrec
        refine ⟨by simp [hl], ?_⟩
        intro i hflag
        cases i with
        | zero => simp
        | succ n =>
          simp only [fenceFlags, List.getElem?_cons_succ] at hflag
          simp only [List.getElem?_cons_succ]
          exact hf n hflag
      · next hbr =>
        split at h
        · next htab =>
          rcases Option.map_eq_some'.mp h with ⟨out', hrec, hout⟩
          subst hout
          simp only [Bool.or_eq_true, not_or, Bool.not_eq_true] at hbr
          obtain ⟨hst1, hib⟩ := hbr
          subst hib
          have hfs : isCodeFenceStart line = false := by
            rcases hc : isCodeFenceStart line with _ | _
            · rfl
            · rw [show handleCodeFence line false cf =
                (true, fenceMarkerOf line) from by simp [handleCodeFence, hc]]
                at hst1
              exact Bool.noConfusion hst1
          have hstcf : handleCodeFence line false cf = (false, cf) := by
            simp [handleCodeFence, hfs]
          rw [hstcf] at hrec
          obtain ⟨hl', hf'⟩ := ih _ _ _ _ hrec
          have hdecomp : (line :: rest).takeWhile isTableRow ++
              (line :: rest).dropWhile isTableRow = line :: rest :=
            List.takeWhile_append_dropWhile isTableRow (line :: rest)
          have hffl : fenceFlags false cf (line :: rest) =
              ((line :: rest).takeWhile isTableRow).map (fun _ => false) ++
              fenceFlags false cf ((line :: rest).dropWhile isTableRow) := by
            conv_lhs => rw [← hdecomp]
            exact fenceFlags_tableBlock cf _ _
              (fun b hb => List.mem_takeWhile_imp hb)
          constructor
          · rw [List.length_append, hlen, hl', ← List.length_append, hdecomp]
          · intro i hflag
            rw [hffl] at hflag
            rcases Nat.lt_or_ge i
              ((line :: rest).takeWhile isTableRow).length with hi | hi
            · exfalso
              rw [List.getElem?_append, if_pos (by simpa using hi),
                List.getElem?_map] at hflag
              rcases hx : ((line :: rest).takeWhile isTableRow)[i]? with _ | x <;>
                rw [hx] at hflag
              · exact Option.noConfusion hflag
              · simp at hflag
            · have hiP : (proc ((line :: rest).takeWhile isTableRow)).length ≤ i := by
                rw [hlen]
                exact hi
              rw [List.getElem?_append_right hiP, hlen]
              conv_rhs => rw [← hdecomp]
              rw [List.getElem?_append_right hi]
              apply hf'
              rw [List.getElem?_append, if_neg (by simpa using Nat.not_lt.mpr hi),
                List.length_map] at hflag
              exact hflag
        · next htab =>
          rcases Option.map_eq_some'.mp h with ⟨out', hrec, hout⟩
          subst hout
          obtain ⟨hl, hf⟩ := ih rest _ _ out' hrec
          refine ⟨by simp [hl], ?_⟩
          intro i hflag
          cases i with
          | zero =>
            exfalso
            simp only [fenceFlags, List.getElem?_cons_zero, Option.some.injEq] at hflag
            rw [hflag] at hbr
            exact hbr rfl
          | succ n =>
            simp only [fenceFlags, List.getElem?_cons_succ] at hflag
            simp only [List.getElem?_cons_succ]
            exact hf n hflag

/-! ### Claim C3 -/

/-- Claim C3: `calculateCompensation columnMax cellCount` returns 0 when
`columnMax = 0`; otherwise it returns `max 0 c` where
`c = min 2 (columnMax - 1) + (columnMax - cellCount)`, with `c`
additionally capped at `columnMax - 1` when `cellCount = 0` and
`columnMax > 2`. -/
theorem calculateCompensation_matches_spec (columnMax cellCount : Nat) :
    calculateCompensation columnMax cellCount =
      if columnMax = 0 then 0
      else
        max 0
          (if cellCount = 0 ∧ 2 < columnMax then
            min (min 2 ((columnMax : Int) - 1) +
                ((columnMax : Int) - (cellCount : Int)))
              ((columnMax : Int) - 1)
          else
            min 2 ((columnMax : Int) - 1) +
              ((columnMax : Int) - (cellCount : Int))) := by
  unfold calculateCompensation
  split
  · rfl
  · simp only [add_sub_assoc]

/-! ### Claim C4 -/

/-- Claim C4: with compensation `n > 0`, `compensateRegularCell` splits the
cell into (lead, content, trail) and: when `trail` has at least `2*n`
characters it removes exactly `2*n` trailing whitespace characters and
appends `n` filler units keeping the remainder of `trail`; else when
`trail` has at least `n` characters it removes all of `trail` and appends
the full `n` filler units; else it returns the cell unchanged.  Leading
whitespace and content are untouched in every branch. -/
theorem compensateRegularCell_matches_spec (cell : Str) (n : Nat) (_hn : 0 < n) :
    compensateRegularCell cell n =
      if 2 * n ≤ (splitCellContent cell).2.2.length then
        (splitCellContent cell).1 ++ (splitCellContent cell).2.1 ++
          List.replicate n ideographicSpace ++
          (splitCellContent cell).2.2.drop (2 * n)
      else if n ≤ (splitCellContent cell).2.2.length then
        (splitCellContent cell).1 ++ (splitCellContent cell).2.1 ++
          List.replicate n ideographicSpace
      else cell := by
  simp only [compensateRegularCell]
  rw [Nat.mul_comm n 2]

/-- Witness for C4 at a concrete cell with three trailing spaces and
compensation 2 (exercising the full-compensation fallback branch). -/
theorem compensateRegularCell_matches_spec_witness :
    0 < 2 ∧
      compensateRegularCell witnessCell 2 =
        (if 2 * 2 ≤ (splitCellContent witnessCell).2.2.length then
          (splitCellContent witnessCell).1 ++ (splitCellContent witnessCell).2.1 ++
            List.replicate 2 ideographicSpace ++
            (splitCellContent witnessCell).2.2.drop (2 * 2)
        else if 2 ≤ (splitCellContent witnessCell).2.2.length then
          (splitCellContent witnessCell).1 ++ (splitCellContent witnessCell).2.1 ++
            List.replicate 2 ideographicSpace
        else witnessCell) :=
  ⟨by decide, compensateRegularCell_matches_spec witnessCell 2 (by decide)⟩

/-! ### Claim C5 -/

/-- Claim C5: for each column index below `numCols`,
`calculateMaxEmojiPerColumn` yields the maximum double-width-glyph count
over the cells at that column of the rows with index ≥ 2; rows lacking a
cell there contribute 0 and a column with no data rows yields 0.  Header
(row 0) and separator (row 1) never contribute. -/
theorem calculateMaxEmojiPerColumn_matches_spec (parsedRows : List (List Str))
    (numCols col : Nat) (h : col < numCols) :
    (calculateMaxEmojiPerColumn parsedRows numCols)[col]? =
      some (maxEmojiPerColumnSpec parsedRows col) := by
  unfold calculateMaxEmojiPerColumn maxEmojiPerColumnSpec
  rw [List.getElem?_map, List.getElem?_range h, Option.map_some',
    foldl_max_getD_eq_filterMap]

/-- Witness for C5: the spec's example, data-row glyph counts `[2,0]` and
`[1,1]`, yields the maxima `[2,1]`. -/
theorem calculateMaxEmojiPerColumn_matches_spec_witness :
    0 < 2 ∧
      (calculateMaxEmojiPerColumn exampleParsedRows 2)[0]? =
        some (maxEmojiPerColumnSpec exampleParsedRows 0) ∧
      calculateMaxEmojiPerColumn exampleParsedRows 2 = [2, 1] :=
  ⟨by decide,
    calculateMaxEmojiPerColumn_matches_spec exampleParsedRows 2 0 (by decide),
    by decide⟩

/-! ### Claim C7 -/

/-- Claim C7 is false as stated: `isTableRow` accepts the one-character row
`"|"` and rows carrying outer whitespace, yet rebuilding does not
reproduce either of them. -/
theorem roundTrip_counterexample :
    isTableRow ['|'] = true ∧ buildTableRow (parseTableRow ['|']) ≠ ['|'] ∧
      isTableRow (' ' :: '|' :: 'a' :: '|' :: []) = true ∧
      buildTableRow (parseTableRow (' ' :: '|' :: 'a' :: '|' :: [])) ≠
        (' ' :: '|' :: 'a' :: '|' :: []) := by decide

/-- Claim C7, amended: for every row accepted by `isTableRow` that equals
its own trim and has at least two characters, `buildTableRow` is the exact
left inverse of `parseTableRow`. -/
theorem buildTableRow_parseTableRow_roundTrip (row : Str)
    (h1 : isTableRow row = true) (h2 : trim row = row) (h3 : 2 ≤ row.length) :
    buildTableRow (parseTableRow row) = row := by
  have hdec := tableRow_decomp row h1 h2 h3
  unfold parseTableRow
  rw [h2]
  conv_lhs => rw [hdec]
  simp only [List.cons_append, List.drop_one, List.tail_cons]
  rw [List.dropLast_concat, buildTableRow_eq_concat, joinWith_splitOnChar]
  conv_rhs => rw [hdec]

/-- Witness for the amended C7 at the trimmed row `"| a |"`. -/
theorem buildTableRow_parseTableRow_roundTrip_witness :
    isTableRow "| a |".toList = true ∧ trim "| a |".toList = "| a |".toList ∧
      2 ≤ "| a |".toList.length ∧
      buildTableRow (parseTableRow "| a |".toList) = "| a |".toList :=
  ⟨by decide, by decide, by decide,
    buildTableRow_parseTableRow_roundTrip _ (by decide) (by decide) (by decide)⟩

/-! ### Claim C9 -/

/-- Claim C9 is false as stated: this glyph-free table block contains an
ideographic-space filler, which `fixTableAlignment` normalizes to two
ordinary spaces, so the block is not returned byte-identical. -/
theorem glyphFree_noop_counterexample :
    fixTableAlignmentFuel 5 glyphFreeFillerDoc ≠ some glyphFreeFillerDoc := by
  decide

/-- Claim C9, amended: every table block in which every cell contains zero
double-width glyphs and no ideographic-space filler units is returned
byte-identical by `processTable` (hence by `fixTableAlignment`). -/
theorem glyphFree_processTable_noop (rows : List Str)
    (hemoji : ∀ r ∈ rows, countEmoji r = 0)
    (hIS : ∀ r ∈ rows, countIdeographicSpaces r = 0) :
    processTable rows = rows := by
  have hclean : rows.map normalizeIdeographicSpaces = rows :=
    map_eq_self_of_forall _ _ fun r hr =>
      normalize_of_not_mem r ((countIS_eq_zero_iff r).mp (hIS r hr))
  have hany : (rows.any fun row => decide (0 < countEmoji row)) = false :=
    List.any_eq_false.mpr fun r hr => by simp [hemoji r hr]
  simp only [processTable]
  rw [hclean, if_pos (Or.inl hany)]

/-- Witness for the amended C9 at a concrete glyph-free, filler-free
table. -/
theorem glyphFree_processTable_noop_witness :
    (∀ r ∈ witnessGlyphFreeTable, countEmoji r = 0) ∧
      (∀ r ∈ witnessGlyphFreeTable, countIdeographicSpaces r = 0) ∧
      processTable witnessGlyphFreeTable = witnessGlyphFreeTable :=
  ⟨by decide, by decide, glyphFree_processTable_noop _ (by decide) (by decide)⟩

/-! ### Claim C1 -/

/-- Claim C1: `fixTableAlignment` is idempotent.  Whenever the scanner
terminates on `content` and produces `out`, running it again on `out`
with the same fuel reproduces `out`: existing filler units are normalized
before compensation is recomputed, so a second pass changes nothing. -/
theorem fixTableAlignment_idem (fuel : Nat) (content out : Str)
    (h : fixTableAlignmentFuel fuel content = some out) :
    fixTableAlignmentFuel fuel out = some out := by
  simp only [fixTableAlignmentFuel] at h ⊢
  rcases Option.map_eq_some'.mp h with ⟨outLines, hrec, hout⟩
  subst hout
  have hnn : ∀ l ∈ outLines, '\n' ∉ l :=
    traverseAux_no_newline fuel _ false [] outLines hrec
      (fun l hl => not_sep_mem_of_mem_splitOnChar '\n' content l hl)
  have hne : outLines ≠ [] := by
    intro habs
    have h4 := (traverseAux_stable fuel _ false [] outLines hrec).2.1
    exact splitOnChar_ne_nil '\n' content (h4.mp habs)
  have hsplit : splitLines (joinLines outLines) = outLines :=
    splitOnChar_joinWith '\n' outLines hne hnn
  rw [hsplit, (traverseAux_stable fuel _ false [] outLines hrec).1]
  rfl

/-- Witness for C1 at a table-bearing document and its fixed form. -/
theorem fixTableAlignment_idem_witness :
    fixTableAlignmentFuel 10 idemDoc = some idemDocOut ∧
      fixTableAlignmentFuel 10 idemDocOut = some idemDocOut :=
  ⟨by decide, fixTableAlignment_idem 10 idemDoc idemDocOut (by decide)⟩

/-! ### Claim C2 -/

/-- Claim C2 (fence opacity): every line the scanner handles in the
code-fence branch — the line that opens a fenced block, the lines inside
it, and the line that closes it — is emitted unchanged by
`fixTableAlignment`, even when those lines form a glyph-bearing table:
the output has one line per input line and agrees with the input at every
fence-flagged position. -/
theorem fence_opacity (fuel : Nat) (content : Str) (out : List Str)
    (h : traverseMarkdownTablesAux processTable fuel (splitLines content)
      false [] = some out) :
    fixTableAlignmentFuel fuel content = some (joinLines out) ∧
    out.length = (splitLines content).length ∧
    ∀ i : Nat, (fenceFlags false [] (splitLines content))[i]? = some true →
      out[i]? = (splitLines content)[i]? := by
  refine ⟨?_, traverseAux_fence processTable processTable_length fuel _ _ _ _ h⟩
  simp only [fixTableAlignmentFuel, h]
  rfl

/-- Witness for C2: a glyph-bearing table inside a code fence passes
through untouched. -/
theorem fence_opacity_witness :
    fixTableAlignmentFuel 10 fenceDoc = some (joinLines (splitLines fenceDoc)) ∧
    (splitLines fenceDoc).length = (splitLines fenceDoc).length ∧
    ∀ i : Nat, (fenceFlags false [] (splitLines fenceDoc))[i]? = some true →
      (splitLines fenceDoc)[i]? = (splitLines fenceDoc)[i]? :=
  fence_opacity 10 fenceDoc (splitLines fenceDoc) (by decide)

/-! ### Claim C6 -/

/-- Claim C6: the core transformations never raise.  In the
exception-aware embedding the one fallible access (`cleanedRow[col]`,
whose failure would make `countEmoji` throw) always finds a cell, so for
every input and every fuel `fixTableAlignment` and `cleanTableAlignment`
return exactly the value of the total embedding, never an error. -/
theorem core_never_throws (fuel : Nat) (content : Str) :
    fixTableAlignmentE fuel content =
      (fixTableAlignmentFuel fuel content).map Except.ok ∧
    cleanTableAlignmentE fuel content =
      (cleanTableAlignmentFuel fuel content).map Except.ok := by
  constructor
  · simp only [fixTableAlignmentE, fixTableAlignmentFuel,
      traverseAuxE_eq processTable processTableE processTableE_eq]
    cases traverseMarkdownTablesAux processTable fuel (splitLines content)
      false [] <;> rfl
  · simp only [cleanTableAlignmentE, cleanTableAlignmentFuel,
      traverseAuxE_eq cleanTable cleanTableE (fun b => rfl)]
    cases traverseMarkdownTablesAux cleanTable fuel (splitLines content)
      false [] <;> rfl

/-! ### Claim C8 -/

/-- Claim C8 (separator integrity): if row 1 of a table block handed to the
table processor is a separator line, the corresponding output row still
satisfies `isTableSeparatorLine`, and every cell of the rebuilt separator
row contains only whitespace (filler units included), colons and
dashes. -/
theorem separator_integrity (rows : List Str) (r : Str)
    (h1 : rows[1]? = some r) (hsep : isTableSeparatorLine r = true) :
    ∃ r', (processTable rows)[1]? = some r' ∧
      isTableSeparatorLine r' = true ∧
      ∀ cell ∈ parseTableRow r', ∀ ch ∈ cell,
        isWs ch = true ∨ ch = ':' ∨ ch = '-' := by
  by_cases hc : ((rows.map normalizeIdeographicSpaces).any fun row =>
      decide (0 < countEmoji row)) = true ∧ 2 ≤ rows.length
  · have hPT := processTable_main_eq rows hc.1 hc.2
    generalize hMeq : calculateMaxEmojiPerColumn
        (rows.map fun r => (parseTableRow r).map normalizeIdeographicSpaces)
        (((rows.map fun r =>
            (parseTableRow r).map normalizeIdeographicSpaces).map
          List.length).foldl max 0) = M at hPT
    refine ⟨buildTableRow (mapWithIndex (fun col cell =>
      processTableCell M true col cell (normalizeIdeographicSpaces cell))
      0 (parseTableRow r)), ?_, ?_, ?_⟩
    · rw [hPT, mapWithIndex_getElem?, h1]
      rfl
    · exact processedRow_sep M r hsep
    · intro cell hcell ch hch
      rw [parse_build_processedCells] at hcell
      rcases exists_of_mem_mapWithIndex _ _ _ _ hcell with ⟨j, orig, hj, hco⟩
      subst hco
      have ho : orig ∈ parseTableRow r := List.mem_iff_getElem?.mpr ⟨j, hj⟩
      rcases processTableCell_sep_cases M (0 + j) orig
        (normalizeIdeographicSpaces orig) with hcase | hcase
      · rw [hcase] at hch
        exact sepCell_chars r hsep orig ho ch hch
      · rw [hcase] at hch
        rcases mem_normalize orig ch hch with h | h
        · rw [h]
          left
          decide
        · exact sepCell_chars r hsep orig ho ch h
  · have hPT := processTable_passive_eq rows hc
    refine ⟨normalizeIdeographicSpaces r, ?_, ?_, ?_⟩
    · rw [hPT, List.getElem?_map, h1]
      rfl
    · rw [isTableSeparatorLine_normalize]
      exact hsep
    · intro cell hcell ch hch
      rw [parseTableRow_normalize] at hcell
      rcases List.mem_map.mp hcell with ⟨orig, ho, hoe⟩
      subst hoe
      rcases mem_normalize orig ch hch with h | h
      · rw [h]
        left
        decide
      · exact sepCell_chars r hsep orig ho ch h

/-- Witness for C8 at a concrete header/separator/data table. -/
theorem separator_integrity_witness :
    ∃ r', (processTable sepWitnessRows)[1]? = some r' ∧
      isTableSeparatorLine r' = true ∧
      ∀ cell ∈ parseTableRow r', ∀ ch ∈ cell,
        isWs ch = true ∨ ch = ':' ∨ ch = '-' :=
  separator_integrity sepWitnessRows "| --- |".toList (by rfl) (by decide)

/-! ### Claim C10 -/

/-- Claim C10 is false of the code: on the document `"a|b\n| - |"` — a
pipe-bearing line that is not a table row, followed by a separator line —
the table branch of the scanner consumes zero lines, the loop index never
advances, and neither `fixTableAlignment` nor `cleanTableAlignment`
terminates, whatever the fuel. -/
theorem scanner_nonTermination :
    ∀ fuel : Nat, fixTableAlignmentFuel fuel loopDoc = none ∧
      cleanTableAlignmentFuel fuel loopDoc = none := by
  intro fuel
  have hsplit : splitLines loopDoc = ["a|b".toList, "| - |".toList] := by decide
  constructor
  · simp only [fixTableAlignmentFuel, hsplit]
    rw [traverseAux_zeroProgress processTable _ _ _ _ (by decide) (by decide)
      (by decide) (by decide)]
    rfl
  · simp only [cleanTableAlignmentFuel, hsplit]
    rw [traverseAux_zeroProgress cleanTable _ _ _ _ (by decide) (by decide)
      (by decide) (by decide)]
    rfl

end FixMdTables
